import Mathlib

/-!
# Verification of the HTML post-processing pipeline of `streamlit_app.py`

This file gives a shallow embedding, over `List Char`, of the pure
text-processing core of the repository's single source file
(`src/streamlit_app.py`): the markup sanitizer (`simplify_html`), the
level-2-heading tools (`count_h2`, `trim_h2_max`,
`strip_existing_summary_h2`, `enforce_summary_last`), the visible-length
machinery (`visible_length`, `trim_to_max_chars`, `_trim_by_p`,
`cap_summary`, `_summary_span`) and the strict length-control loop, and
proves or refutes the specification's claims about them.

Modelling conventions:
* Python strings are `List Char` (one element per code point, matching
  Python's `len` and slicing).
* The regular expressions in the source use a small fragment of `re`:
  literal searches, `[^>]*`, `\w+`, `\s*`, `.*?` (with and without
  `re.DOTALL`) and `re.IGNORECASE`.  Each regex operation
  (`findall`/`sub`/`split`/`search`) is translated into an explicit
  left-to-right scanner with the same leftmost, non-greedy semantics.
* `re.IGNORECASE` and `str.lower` are modelled on the ASCII range
  (Python's behaviour is Unicode-aware, but every tag name and pattern
  involved is ASCII).  `\w` is modelled as ASCII alphanumeric or `_`,
  and the whitespace class `\s` / `str.strip` as ASCII whitespace;
  the non-ASCII characters appearing in the claims are unaffected.
* All scanners use explicit fuel (an upper bound on the number of scan
  steps, always instantiated with the string length) so that every
  definition is structurally recursive and computable by `decide`/`rfl`.
-/

set_option maxHeartbeats 1000000

namespace AutoWriter

/-! ## Python string primitives -/

/-- Python whitespace (`str.isspace` / regex `\s`), restricted to ASCII:
space and the control characters 9–13. -/
def isPySpace (c : Char) : Bool :=
  c = ' ' || (9 ≤ c.toNat && c.toNat ≤ 13)

/-- `str.lstrip()` (no argument: strips whitespace). -/
def pyLstrip (s : List Char) : List Char := s.dropWhile isPySpace

/-- `str.rstrip()`. -/
def pyRstrip (s : List Char) : List Char := (s.reverse.dropWhile isPySpace).reverse

/-- `str.strip()`. -/
def pyStrip (s : List Char) : List Char := pyLstrip (pyRstrip s)

/-- ASCII lowercase on code points (used to model `str.lower` and
`re.IGNORECASE`). -/
def lowerN (n : Nat) : Nat := if 65 ≤ n ∧ n ≤ 90 then n + 32 else n

/-- Case-insensitive character comparison (`re.IGNORECASE`). -/
def ciEqChar (a b : Char) : Bool := lowerN a.toNat == lowerN b.toNat

/-- Case-insensitive "pat is a prefix of s". -/
def ciIsPrefixOf : List Char → List Char → Bool
  | [], _ => true
  | _ :: _, [] => false
  | p :: ps, c :: cs => ciEqChar p c && ciIsPrefixOf ps cs

/-- Exact "pat is a prefix of s". -/
def isPrefixOfB : List Char → List Char → Bool
  | [], _ => true
  | _ :: _, [] => false
  | p :: ps, c :: cs => (p == c) && isPrefixOfB ps cs

/-- Exact substring test (Python's `pat in s`). -/
def occursB (pat : List Char) : List Char → Bool
  | [] => isPrefixOfB pat []
  | c :: cs => isPrefixOfB pat (c :: cs) || occursB pat cs

/-- Case-insensitive substring test. -/
def ciOccursB (pat : List Char) : List Char → Bool
  | [] => ciIsPrefixOf pat []
  | c :: cs => ciIsPrefixOf pat (c :: cs) || ciOccursB pat cs

/-- Leftmost case-insensitive occurrence of `pat` in `s`: returns
`(before, fromMatch)` with `s = before ++ fromMatch` and `pat` a
case-insensitive prefix of `fromMatch`, choosing the smallest `before`. -/
def firstOccCi (pat : List Char) : List Char → Option (List Char × List Char)
  | [] => if ciIsPrefixOf pat [] then some ([], []) else none
  | c :: cs =>
    if ciIsPrefixOf pat (c :: cs) then some ([], c :: cs)
    else
      match firstOccCi pat cs with
      | some (pre, r) => some (c :: pre, r)
      | none => none

/-- Drop everything up to and including the first `'>'`
(the `[^>]*>` step of a tag regex); `none` when there is no `'>'`. -/
def dropAfterGt : List Char → Option (List Char)
  | [] => none
  | c :: cs => if c = '>' then some cs else dropAfterGt cs

/-- Like `dropAfterGt` but failing at a newline: the `.*?>` step of
`re.sub(r'<.*?>', ...)` *without* `re.DOTALL`, where `.` does not match
`'\n'`. -/
def dropAfterGtLine : List Char → Option (List Char)
  | [] => none
  | c :: cs =>
    if c = '>' then some cs
    else if c = '\n' then none
    else dropAfterGtLine cs

/-! ## Level-2 heading scanner

`H2_RE = re.compile(r'(<h2>.*?</h2>)', re.IGNORECASE | re.DOTALL)`.
A leftmost match of this pattern starts at the first (case-insensitive)
occurrence of `<h2>` and ends at the first following `</h2>`; if the
first `<h2>` has no `</h2>` after it, no later `<h2>` has one either, so
there is no match at all. -/

/-- The literal `<h2>`. -/
def h2open : List Char := "<h2>".data

/-- The literal `</h2>`. -/
def h2close : List Char := "</h2>".data

/-- One `H2_RE` match: the text before it, the matched opening tag
(4 characters, original case), the non-greedy inner text, and the
matched closing tag (5 characters, original case). -/
structure H2Seg where
  pre : List Char
  otag : List Char
  inner : List Char
  ctag : List Char
deriving DecidableEq

/-- The full matched chunk `<h2>…</h2>` of a segment. -/
def H2Seg.chunk (g : H2Seg) : List Char := g.otag ++ g.inner ++ g.ctag

/-- Leftmost `H2_RE` match of `s`, with the remainder of the string. -/
def h2Match (s : List Char) : Option (H2Seg × List Char) :=
  match firstOccCi h2open s with
  | none => none
  | some (pre, r1) =>
    match firstOccCi h2close (r1.drop 4) with
    | none => none
    | some (mid, r2) => some (⟨pre, r1.take 4, mid, r2.take 5⟩, r2.drop 5)

/-- All `H2_RE` matches of `s` in order, and the text after the last
match (the whole of `s` when there is no match).  This is the match
structure that `re.findall` / `re.finditer` / `re.split` share. -/
def h2SegsGo : Nat → List Char → List H2Seg × List Char
  | 0, s => ([], s)
  | fuel + 1, s =>
    match h2Match s with
    | none => ([], s)
    | some (g, rest) =>
      let p := h2SegsGo fuel rest
      (g :: p.1, p.2)

/-- `h2SegsGo` with always-sufficient fuel. -/
def h2Segs (s : List Char) : List H2Seg × List Char := h2SegsGo s.length s

/-- `count_h2` (line 155): `len(H2_RE.findall(html))`. -/
def countH2Go : Nat → List Char → Nat
  | 0, _ => 0
  | fuel + 1, s =>
    match h2Match s with
    | none => 0
    | some (_, rest) => countH2Go fuel rest + 1

/-- `count_h2` (lines 155–156). -/
def count_h2 (s : List Char) : Nat := countH2Go s.length s

/-- Pair every match with the text that follows it up to the next match
(for the last match: up to the end of the document).
`H2_RE.split` returns `[pre₁, chunk₁, pre₂, chunk₂, …, tail]`; the loop
of `trim_h2_max` emits, for each kept header chunk, the text part right
after it, which is the next match's `pre` (or the final `tail`). -/
def segFollows : List H2Seg → List Char → List (H2Seg × List Char)
  | [], _ => []
  | [g], tail => [(g, tail)]
  | g :: g2 :: gs, tail => (g, g2.pre) :: segFollows (g2 :: gs) tail

/-- `trim_h2_max` (lines 158–177).  The Python code walks the
`H2_RE.split` parts with an index, keeping the leading text (the text
parts seen while `h2_seen == 0`, i.e. `pre₁`) and the first `max_count`
header chunks each together with its following text part.  Text parts
produced by `re.split` never themselves start with a full
`<h2>…</h2>` match, so the `H2_RE.match(chunk)` test in the loop is
exactly "the part at an odd index". -/
def trim_h2_max (structure_html : List Char) (max_count : Nat) : List Char :=
  match h2Segs structure_html with
  | ([], tail) => tail
  | (g :: gs, tail) =>
    g.pre ++ (((segFollows (g :: gs) tail).take max_count).map
      (fun p => p.1.chunk ++ p.2)).flatten

/-! ## Tag-stripping and titles -/

/-- `re.sub(r'<.*?>', '', s)` without `re.DOTALL` (used for header
titles on lines 150 and 188): a removed span runs from a `'<'` to the
first following `'>'` with no intervening newline. -/
def stripTagsLineGo : Nat → List Char → List Char
  | 0, s => s
  | _ + 1, [] => []
  | fuel + 1, c :: cs =>
    if c = '<' then
      match dropAfterGtLine cs with
      | some rest => stripTagsLineGo fuel rest
      | none => c :: stripTagsLineGo fuel cs
    else c :: stripTagsLineGo fuel cs

/-- `re.sub(r'<.*?>', '', s)` (no DOTALL), with sufficient fuel. -/
def stripTagsLine (s : List Char) : List Char := stripTagsLineGo s.length s

/-- `re.sub(r'<.*?>', '', s, flags=re.DOTALL)` (used by `_visible_len`
and `visible_length`, lines 240–241 and 270–272): spans may cross
newlines. -/
def stripTagsDotallGo : Nat → List Char → List Char
  | 0, s => s
  | _ + 1, [] => []
  | fuel + 1, c :: cs =>
    if c = '<' then
      match dropAfterGt cs with
      | some rest => stripTagsDotallGo fuel rest
      | none => c :: stripTagsDotallGo fuel cs
    else c :: stripTagsDotallGo fuel cs

/-- DOTALL tag stripper with sufficient fuel. -/
def stripTagsDotall (s : List Char) : List Char := stripTagsDotallGo s.length s

/-- Title of a header, as computed on line 188:
`re.sub(r'<.*?>', '', m.group(1) or '').strip()`. -/
def sectionTitle (innerHtml : List Char) : List Char := pyStrip (stripTagsLine innerHtml)

/-- The closing-section marker word. -/
def matome : List Char := "まとめ".data

/-- The line-191 test: `"まとめ" in title`. -/
def isSummarySeg (g : H2Seg) : Bool := occursB matome (sectionTitle g.inner)

/-- `strip_existing_summary_h2` (lines 179–202).  The loop tiles the
document, from the first match on, into blocks
`[match_i.start, match_{i+1}.start)`; a block is dropped when its title
contains the marker, kept otherwise; the text before the first match is
emitted just before the first *kept* block only when that block is the
first match (for later matches `last_end` already equals the block
start), and the result is `"".flatten(out).strip()`.  When there is no
match the whole document is kept. -/
def strip_existing_summary_h2 (structure_html : List Char) : List Char :=
  match h2Segs structure_html with
  | ([], _) => pyStrip structure_html
  | (g :: gs, tail) =>
    pyStrip ((if isSummarySeg g then [] else g.pre)
      ++ (((segFollows (g :: gs) tail).filter (fun p => !isSummarySeg p.1)).map
          (fun p => p.1.chunk ++ p.2)).flatten)

/-- The literal appended on lines 219–220:
`f"\n<h2>{keyword}に関するまとめ</h2>\n"`. -/
def summarySuffix (keyword : List Char) : List Char :=
  "\n<h2>".data ++ keyword ++ "に関するまとめ</h2>\n".data

/-- `enforce_summary_last` (lines 204–220).  `total_h2` is taken as a
natural number, so `max(total_h2 - 1, 0)` is Lean's truncated
subtraction `total_h2 - 1`. -/
def enforce_summary_last (structure_html keyword : List Char) (total_h2 : Nat) : List Char :=
  let s1 := strip_existing_summary_h2 structure_html
  let content_max := total_h2 - 1
  let s2 := if count_h2 s1 > content_max then trim_h2_max s1 content_max else s1
  pyRstrip s2 ++ summarySuffix keyword

/-! ## Visible length and paragraph-unit trimming -/

/-- `visible_length` (lines 270–272), also `_visible_len` (lines
240–241, an identical duplicate in the source):
`len(re.sub(r'<.*?>', '', html, flags=re.DOTALL).strip())`. -/
def visible_length (html : List Char) : Nat := (pyStrip (stripTagsDotall html)).length

/-- The literal `<p>`. -/
def pOpen : List Char := "<p>".data

/-- The literal `</p>`. -/
def pClose : List Char := "</p>".data

/-- One match of `(?si).*?(?:<p>.*?</p>|$)` that ends in a `<p>…</p>`
unit: the shortest prefix of `s` ending with a complete paragraph
element, paired with the remainder.  `none` when no complete
`<p>…</p>` exists in `s` (then the regex can only match via `$`). -/
def findPUnit (s : List Char) : Option (List Char × List Char) :=
  match firstOccCi pOpen s with
  | none => none
  | some (pre, r1) =>
    match firstOccCi pClose (r1.drop 3) with
    | none => none
    | some (mid, r2) => some (pre ++ r1.take 3 ++ mid ++ r2.take 4, r2.drop 4)

/-- `re.findall(r'(?si).*?(?:<p>.*?</p>|$)', s)` (lines 245 and 277):
the consecutive paragraph-ending chunks, then the remainder matched via
`$`, then the final empty match that `findall` reports at the end of
the subject. -/
def pUnitsGo : Nat → List Char → List (List Char)
  | 0, s => if s.isEmpty then [[]] else [s, []]
  | fuel + 1, s =>
    match findPUnit s with
    | none => if s.isEmpty then [[]] else [s, []]
    | some (u, rest) => u :: pUnitsGo fuel rest

/-- The `findall` above with sufficient fuel. -/
def pUnits (s : List Char) : List (List Char) := pUnitsGo s.length s

/-- The accumulation loop shared by `_trim_by_p` (lines 246–252) and
`trim_to_max_chars` (lines 278–283): extend `out` by whole parts while
the visible length stays within `limit`; stop at the first part that
does not fit. -/
def trimByPAcc (limit : Nat) : List Char → List (List Char) → List Char
  | out, [] => out
  | out, p :: ps =>
    if visible_length (out ++ p) ≤ limit then trimByPAcc limit (out ++ p) ps else out

/-- `_trim_by_p` (lines 243–253): paragraph-unit accumulation with the
raw-slice fallback `html_block[:limit]` when not even one unit fits
(`return out if out else html_block[:limit]`). -/
def trimByP (html_block : List Char) (limit : Nat) : List Char :=
  if (trimByPAcc limit [] (pUnits html_block)).isEmpty then html_block.take limit
  else trimByPAcc limit [] (pUnits html_block)

/-- `trim_to_max_chars` (lines 274–284). -/
def trim_to_max_chars (html : List Char) (limit : Nat) : List Char :=
  if visible_length html ≤ limit then html
  else if (trimByPAcc limit [] (pUnits html)).isEmpty then html.take limit
  else trimByPAcc limit [] (pUnits html)

/-! ## The summary-section span and `cap_summary` -/

/-- A match of `(?i)<h2>\s*まとめ\s*</h2>` starting at the head of `s`
(line 231): returns the matched text and the remainder.  The pattern
requires the title to be *exactly* the marker word, up to surrounding
whitespace. -/
def summaryHeadAt (s : List Char) : Option (List Char × List Char) :=
  if ciIsPrefixOf h2open s then
    let r1 := s.drop 4
    let r2 := r1.dropWhile isPySpace
    if isPrefixOfB matome r2 then
      let r3 := (r2.drop 3).dropWhile isPySpace
      if ciIsPrefixOf h2close r3 then
        some (s.take 4 ++ r1.takeWhile isPySpace ++ matome
              ++ (r2.drop 3).takeWhile isPySpace ++ r3.take 5, r3.drop 5)
      else none
    else none
  else none

/-- `re.search(r'(?i)<h2>\s*まとめ\s*</h2>', html)` (line 231): the
leftmost match, as `(before, matched, after)`. -/
def findSummaryHead : List Char → Option (List Char × List Char × List Char)
  | [] => none
  | c :: cs =>
    match summaryHeadAt (c :: cs) with
    | some (m, r) => some ([], m, r)
    | none => (findSummaryHead cs).map (fun t => (c :: t.1, t.2.1, t.2.2))

/-- `cap_summary` (lines 255–265), with `_summary_span` (lines 229–238)
inlined: the span runs from the matched header to the next
(case-insensitive) `<h2>` or the end of the document; the span is
trimmed by `_trim_by_p` and the rest of the document is untouched. -/
def cap_summary (html : List Char) (limit_chars : Nat) : List Char :=
  match findSummaryHead html with
  | none => html
  | some (head, matched, after) =>
    match firstOccCi h2open after with
    | some (mid, rest) => head ++ trimByP (matched ++ mid) limit_chars ++ rest
    | none => head ++ trimByP (matched ++ after) limit_chars

/-! ## The sanitizer `simplify_html` -/

/-- `ALLOWED_TAGS` (line 112). -/
def ALLOWED_TAGS : List (List Char) :=
  ["h2".data, "h3".data, "p".data, "strong".data, "em".data, "ul".data,
   "ol".data, "li".data, "table".data, "tr".data, "th".data, "td".data]

/-- Regex `\w`, restricted to ASCII. -/
def isWordChar (c : Char) : Bool := c.isAlphanum || c = '_'

/-- Case-insensitive string equality. -/
def ciStrEq : List Char → List Char → Bool
  | [], [] => true
  | a :: as, b :: bs => ciEqChar a b && ciStrEq as bs
  | _, _ => false

/-- The line-120 test `tag.lower() not in ALLOWED_TAGS`, negated: since
every entry of `ALLOWED_TAGS` is lowercase ASCII, `tag.lower() == a`
is case-insensitive equality with `a`. -/
def isAllowedTag (t : List Char) : Bool := ALLOWED_TAGS.any (fun a => ciStrEq t a)

/-- The optional `/` of `</?…>`: drop one leading `'/'` if present. -/
def stripSlash : List Char → List Char
  | '/' :: rest => rest
  | cs => cs

/-- One match of `</?(\w+)[^>]*>` whose `'<'` has just been consumed:
optional `'/'`, a maximal non-empty run of word characters (the
captured group), then everything up to and including the first `'>'`. -/
def tagCapture (cs : List Char) : Option (List Char × List Char) :=
  let cs2 := stripSlash cs
  let name := cs2.takeWhile isWordChar
  if name.isEmpty then none
  else
    match dropAfterGt (cs2.dropWhile isWordChar) with
    | some rest => some (name, rest)
    | none => none

/-- `re.findall(r'</?(\w+)[^>]*>', html)` (line 118): the captured tag
names, in match order. -/
def findTagsGo : Nat → List Char → List (List Char)
  | 0, _ => []
  | _ + 1, [] => []
  | fuel + 1, c :: cs =>
    if c = '<' then
      match tagCapture cs with
      | some (name, rest) => name :: findTagsGo fuel rest
      | none => findTagsGo fuel cs
    else findTagsGo fuel cs

/-- The `findall` above with sufficient fuel. -/
def findTags (s : List Char) : List (List Char) := findTagsGo s.length s

/-- `set(tags)` (line 119), modelled as first-occurrence deduplication.
Python's set iteration order is unspecified; every theorem below about
`simplify_html` is insensitive to the order in which the distinct tag
names are processed. -/
def firstDedupGo (seen : List (List Char)) : List (List Char) → List (List Char)
  | [] => []
  | t :: ts =>
    if seen.contains t then firstDedupGo seen ts
    else t :: firstDedupGo (t :: seen) ts

/-- First-occurrence deduplication. -/
def firstDedup (l : List (List Char)) : List (List Char) := firstDedupGo [] l

/-- A match of `</?{tag}[^>]*>` (case-insensitive) starting at the head
of `s`: returns the remainder after the match. -/
def tagSubMatch (t : List Char) (s : List Char) : Option (List Char) :=
  match s with
  | '<' :: s1 =>
    if ciIsPrefixOf t (stripSlash s1) then
      dropAfterGt ((stripSlash s1).drop t.length)
    else none
  | _ => none

/-- `re.sub(rf'</?{tag}[^>]*>', '', html, flags=re.IGNORECASE)`
(line 121). -/
def subTagGo (t : List Char) : Nat → List Char → List Char
  | 0, s => s
  | _ + 1, [] => []
  | fuel + 1, c :: cs =>
    match tagSubMatch t (c :: cs) with
    | some rest => subTagGo t fuel rest
    | none => c :: subTagGo t fuel cs

/-- The tag substitution with sufficient fuel. -/
def subTag (t s : List Char) : List Char := subTagGo t s.length s

/-- A match of `<br\s*/?>` (case-insensitive) at the head of `s`. -/
def brMatch (s : List Char) : Option (List Char) :=
  match s with
  | '<' :: s1 =>
    if ciIsPrefixOf "br".data s1 then
      match (s1.drop 2).dropWhile isPySpace with
      | '/' :: '>' :: rest => some rest
      | '>' :: rest => some rest
      | _ => none
    else none
  | _ => none

/-- `re.sub(r'<br\s*/?>', '', html, flags=re.IGNORECASE)` (line 122). -/
def subBrGo : Nat → List Char → List Char
  | 0, s => s
  | _ + 1, [] => []
  | fuel + 1, c :: cs =>
    match brMatch (c :: cs) with
    | some rest => subBrGo fuel rest
    | none => c :: subBrGo fuel cs

/-- The `<br>` substitution with sufficient fuel. -/
def subBr (s : List Char) : List Char := subBrGo s.length s

/-- `simplify_html` (lines 116–123). -/
def simplify_html (html : List Char) : List Char :=
  let tags := firstDedup (findTags html)
  let stripped := tags.foldl
    (fun acc t => if isAllowedTag t then acc else subTag t acc) html
  subBr stripped

/-! ## The strict length-control loop -/

/-- The `strict_chars` adjustment loop (lines 906–929).  Each iteration
measures the visible length; below `min_chars` it computes the deficit
and enters the fill branch, whose line 915 evaluates the undefined
names `content` and `needed_chars`, raising `NameError` before any
request is issued — the bare `except Exception: break` then aborts the
loop; above `max_chars` it trims once and breaks; otherwise it breaks.
Every path through the body breaks, so at most one iteration runs, and
the fill branch never changes the document. -/
def strictAdjustLoop (max_adjust_tries min_chars max_chars : Nat)
    (html : List Char) : List Char :=
  if max_adjust_tries = 0 then html
  else
    let cur_len := visible_length html
    if cur_len < min_chars then html
    else if cur_len > max_chars then trim_to_max_chars html max_chars
    else html

/-- The local post-processing after the adjustment loop (lines
931–939): cap the summary section at 320 visible characters first,
then enforce the whole-document maximum as a final safety cut. -/
def finalizeLengths (html : List Char) (max_chars : Nat) : List Char :=
  if visible_length (cap_summary html 320) > max_chars then
    trim_to_max_chars (cap_summary html 320) max_chars
  else cap_summary html 320

/-! ## Character-level lemmas -/

theorem charToNat_inj {a b : Char} (h : a.toNat = b.toNat) : a = b := by
  cases a; cases b
  simp only [Char.toNat] at h
  congr 1
  exact UInt32.toNat.inj h

/-- Characters whose code point is not an ASCII letter; for these,
case-insensitive equality is plain equality. -/
abbrev nonLetterCh (k : Char) : Prop :=
  k.toNat < 65 ∨ (90 < k.toNat ∧ k.toNat < 97) ∨ 122 < k.toNat

theorem ciEqChar_eq_iff {c k : Char} (hk : nonLetterCh k) :
    ciEqChar c k = true ↔ c = k := by
  unfold ciEqChar lowerN
  rw [beq_iff_eq]
  unfold nonLetterCh at hk
  constructor
  · intro h
    split_ifs at h with h1 h2 h2 <;> try omega
    · exact charToNat_inj h
  · rintro rfl; rfl

theorem ciEqChar_symm (a b : Char) : ciEqChar a b = ciEqChar b a := by
  unfold ciEqChar
  rw [Bool.eq_iff_iff]
  simp only [beq_iff_eq]
  exact eq_comm

theorem ciEqChar_refl (a : Char) : ciEqChar a a = true := by
  simp [ciEqChar]

/-! ## `ciIsPrefixOf` lemmas -/

theorem ciIsPrefixOf_append_right {pat t : List Char} (u : List Char)
    (h : ciIsPrefixOf pat t = true) : ciIsPrefixOf pat (t ++ u) = true := by
  induction pat generalizing t with
  | nil => rfl
  | cons p ps ih =>
    cases t with
    | nil => simp [ciIsPrefixOf] at h
    | cons c cs =>
      simp only [ciIsPrefixOf, Bool.and_eq_true] at h
      simp only [List.cons_append, ciIsPrefixOf, Bool.and_eq_true]
      exact ⟨h.1, ih h.2⟩

theorem ciIsPrefixOf_self_append (p u : List Char) :
    ciIsPrefixOf p (p ++ u) = true := by
  induction p with
  | nil => rfl
  | cons c cs ih =>
    simp only [List.cons_append, ciIsPrefixOf, Bool.and_eq_true]
    exact ⟨ciEqChar_refl c, ih⟩

theorem ciIsPrefixOf_length_le {pat s : List Char}
    (h : ciIsPrefixOf pat s = true) : pat.length ≤ s.length := by
  induction pat generalizing s with
  | nil => simp
  | cons p ps ih =>
    cases s with
    | nil => simp [ciIsPrefixOf] at h
    | cons c cs =>
      simp only [ciIsPrefixOf, Bool.and_eq_true] at h
      simpa using ih h.2

theorem ciIsPrefixOf_take {pat t b : List Char}
    (h : ciIsPrefixOf pat (t ++ b) = true) :
    ciIsPrefixOf (pat.take t.length) t = true := by
  induction pat generalizing t with
  | nil => simp [ciIsPrefixOf]
  | cons p ps ih =>
    cases t with
    | nil => simp [ciIsPrefixOf]
    | cons c cs =>
      simp only [List.cons_append, ciIsPrefixOf, Bool.and_eq_true] at h
      simp only [List.length_cons, List.take_succ_cons, ciIsPrefixOf, Bool.and_eq_true]
      exact ⟨h.1, ih h.2⟩

theorem ciIsPrefixOf_get_of_append {pat t : List Char} {bh : Char} {bt : List Char}
    (hlt : t.length < pat.length)
    (h : ciIsPrefixOf pat (t ++ bh :: bt) = true) :
    ciEqChar (pat.get ⟨t.length, hlt⟩) bh = true := by
  induction t generalizing pat with
  | nil =>
    cases pat with
    | nil => simp at hlt
    | cons p ps =>
      simp only [List.nil_append, ciIsPrefixOf, Bool.and_eq_true] at h
      exact h.1
  | cons c cs ih =>
    cases pat with
    | nil => simp at hlt
    | cons p ps =>
      simp only [List.cons_append, ciIsPrefixOf, Bool.and_eq_true] at h
      exact ih (by simpa using Nat.lt_of_succ_lt_succ hlt) h.2

/-! ## `firstOccCi` lemmas -/

theorem firstOccCi_decomp {pat s pre r : List Char}
    (h : firstOccCi pat s = some (pre, r)) :
    s = pre ++ r ∧ ciIsPrefixOf pat r = true := by
  induction s generalizing pre with
  | nil =>
    unfold firstOccCi at h
    split at h
    · injection h with h2
      injection h2 with hl hr
      subst hl; subst hr
      exact ⟨rfl, by assumption⟩
    · exact absurd h (by simp)
  | cons c cs ih =>
    unfold firstOccCi at h
    split at h
    · injection h with h2
      injection h2 with hl hr
      subst hl; subst hr
      exact ⟨rfl, by assumption⟩
    · rename_i hneg
      cases hrec : firstOccCi pat cs with
      | none => rw [hrec] at h; exact absurd h (by simp)
      | some pr =>
        obtain ⟨pre0, r0⟩ := pr
        rw [hrec] at h
        injection h with h2
        injection h2 with hl hr
        subst hl; subst hr
        obtain ⟨he, hp⟩ := ih hrec
        exact ⟨by simp [he], hp⟩

theorem firstOccCi_min {pat s pre r : List Char}
    (h : firstOccCi pat s = some (pre, r)) :
    ∀ n, n < pre.length → ciIsPrefixOf pat (pre.drop n ++ r) = false := by
  induction s generalizing pre with
  | nil =>
    unfold firstOccCi at h
    split at h
    · injection h with h2
      injection h2 with hl _
      subst hl
      intro n hn; simp at hn
    · exact absurd h (by simp)
  | cons c cs ih =>
    unfold firstOccCi at h
    split at h
    · injection h with h2
      injection h2 with hl _
      subst hl
      intro n hn; simp at hn
    · rename_i hneg
      cases hrec : firstOccCi pat cs with
      | none => rw [hrec] at h; exact absurd h (by simp)
      | some pr =>
        obtain ⟨pre0, r0⟩ := pr
        rw [hrec] at h
        injection h with h2
        injection h2 with hl hr
        subst hl; subst hr
        intro n hn
        cases n with
        | zero =>
          obtain ⟨he, _⟩ := firstOccCi_decomp hrec
          have heq : (c :: pre0).drop 0 ++ r0 = c :: cs := by simp [he]
          rw [heq]
          simpa using hneg
        | succ m =>
          have := ih hrec m (by simpa using Nat.lt_of_succ_lt_succ hn)
          simpa using this

theorem firstOccCi_none {pat s : List Char} (h : firstOccCi pat s = none) :
    ∀ n, ciIsPrefixOf pat (s.drop n) = false := by
  induction s with
  | nil =>
    intro n
    unfold firstOccCi at h
    split at h
    · exact absurd h (by simp)
    · rename_i hneg
      simp only [List.drop_nil]
      simpa using hneg
  | cons c cs ih =>
    intro n
    unfold firstOccCi at h
    split at h
    · exact absurd h (by simp)
    · rename_i hneg
      cases hrec : firstOccCi pat cs with
      | none =>
        cases n with
        | zero => simpa using hneg
        | succ m => simpa using ih hrec m
      | some pr => rw [hrec] at h; exact absurd h (by simp)

theorem firstOccCi_isSome_of {pat s : List Char} (n : Nat)
    (h : ciIsPrefixOf pat (s.drop n) = true) :
    (firstOccCi pat s).isSome := by
  induction s generalizing n with
  | nil =>
    simp only [List.drop_nil] at h
    unfold firstOccCi
    rw [if_pos h]; rfl
  | cons c cs ih =>
    unfold firstOccCi
    split
    · rfl
    · rename_i hneg
      cases n with
      | zero => simp only [List.drop_zero] at h; exact absurd h hneg
      | succ m =>
        have hsome := ih m (by simpa using h)
        cases hrec : firstOccCi pat cs with
        | none => rw [hrec] at hsome; simp at hsome
        | some pr => cases pr; rfl

theorem firstOccCi_cons_neg {pat : List Char} {c : Char} {cs : List Char}
    (h : ciIsPrefixOf pat (c :: cs) = false) :
    firstOccCi pat (c :: cs) =
      match firstOccCi pat cs with
      | some (pre, r) => some (c :: pre, r)
      | none => none := by
  conv_lhs => unfold firstOccCi
  rw [if_neg (by simp [h])]

theorem firstOccCi_append {pat : List Char} (a b : List Char)
    (H : ∀ n, n < a.length → ciIsPrefixOf pat (a.drop n ++ b) = false) :
    firstOccCi pat (a ++ b) =
      (firstOccCi pat b).map (fun pr => (a ++ pr.1, pr.2)) := by
  induction a with
  | nil =>
    cases h : firstOccCi pat b with
    | none => simp [h]
    | some pr => cases pr; simp [h]
  | cons c as ih =>
    have h0 : ciIsPrefixOf pat (c :: (as ++ b)) = false := by
      simpa using H 0 (by simp)
    have ih2 := ih (fun n hn => by
      simpa using H (n + 1) (by simpa using Nat.succ_lt_succ hn))
    rw [List.cons_append, firstOccCi_cons_neg h0, ih2]
    cases hb : firstOccCi pat b with
    | none => rfl
    | some pr => cases pr; rfl

/-- Matches starting inside `a` are impossible when `pat` begins with a
character that does not occur in `a` (case-insensitively rigid, e.g.
`'<'`). -/
theorem noPrefixAt_of_head {pat : List Char} {k : Char}
    (hk : nonLetterCh k) (hpat : pat.head? = some k)
    {a : List Char} (ha : ∀ c ∈ a, c ≠ k) (b : List Char) :
    ∀ n, n < a.length → ciIsPrefixOf pat (a.drop n ++ b) = false := by
  intro n hn
  cases hd : a.drop n with
  | nil => simp [List.drop_eq_nil_iff] at hd; omega
  | cons c rest =>
    have hc : c ∈ a := List.mem_of_mem_drop (hd ▸ List.mem_cons_self c rest)
    cases pat with
    | nil => simp at hpat
    | cons p ps =>
      simp only [List.head?_cons, Option.some.injEq] at hpat
      subst hpat
      have hcp : ciEqChar c p = false := by
        by_contra hx
        rw [Bool.not_eq_false] at hx
        exact absurd ((ciEqChar_eq_iff hk).mp hx) (ha c hc)
      have hpc : ciEqChar p c = false := by rw [ciEqChar_symm]; exact hcp
      simp [ciIsPrefixOf, hpc]

/-- Matches starting inside `a` are impossible when `a` contains no
full match and the continuation starts with a character that matches no
position `≥ 1` of `pat`. -/
theorem noPrefixAt_of_clean {pat a : List Char} {bh : Char} (bt : List Char)
    (hclean : ∀ m, ciIsPrefixOf pat (a.drop m) = false)
    (hh : ∀ i : Fin pat.length, 0 < i.val → ciEqChar (pat.get i) bh = false) :
    ∀ n, n < a.length → ciIsPrefixOf pat (a.drop n ++ bh :: bt) = false := by
  intro n hn
  by_contra hcontra
  rw [Bool.not_eq_false] at hcontra
  by_cases hlen : pat.length ≤ (a.drop n).length
  · have h2 := ciIsPrefixOf_take hcontra
    rw [List.take_of_length_le hlen] at h2
    exact absurd h2 (by simp [hclean n])
  · push_neg at hlen
    have h2 := ciIsPrefixOf_get_of_append hlen hcontra
    have hpos : 0 < (a.drop n).length := by
      simp only [List.length_drop]; omega
    have hfin := hh ⟨(a.drop n).length, hlen⟩ hpos
    rw [hfin] at h2
    exact absurd h2 (by simp)

/-! ## H2 match theory -/

theorem eq_of_ciEqChar_left {p c : Char} (hp : nonLetterCh p)
    (h : ciEqChar p c = true) : c = p := by
  rw [ciEqChar_symm] at h
  exact (ciEqChar_eq_iff hp).mp h

theorem firstOccCi_cons_pos {pat : List Char} {c : Char} {cs : List Char}
    (h : ciIsPrefixOf pat (c :: cs) = true) :
    firstOccCi pat (c :: cs) = some ([], c :: cs) := by
  conv_lhs => unfold firstOccCi
  rw [if_pos h]

/-- Well-formedness of a recovered `H2_RE` match: the matched tags have
the right length and case-insensitive spelling, and neither the text
before the match nor the non-greedy inner text contains a match
boundary. -/
structure SegGood (g : H2Seg) : Prop where
  olen : g.otag.length = 4
  opre : ciIsPrefixOf h2open g.otag = true
  clen : g.ctag.length = 5
  cpre : ciIsPrefixOf h2close g.ctag = true
  preClean : ∀ n, ciIsPrefixOf h2open (g.pre.drop n) = false
  innerClean : ∀ n, ciIsPrefixOf h2close (g.inner.drop n) = false

/-- Reassemble one match followed by a continuation (grouped so that
each piece is followed by everything after it). -/
def renderSeg (g : H2Seg) (y : List Char) : List Char :=
  g.pre ++ (g.otag ++ (g.inner ++ (g.ctag ++ y)))

/-- Reassemble a match list followed by a final text. -/
def renderSegs : List H2Seg → List Char → List Char
  | [], y => y
  | g :: gs, y => renderSeg g (renderSegs gs y)

theorem SegGood.otag_cons {g : H2Seg} (hg : SegGood g) :
    ∃ t, g.otag = '<' :: t := by
  cases ho : g.otag with
  | nil => have := hg.olen; rw [ho] at this; simp at this
  | cons c t =>
    have hp := hg.opre
    rw [ho] at hp
    simp only [h2open, ciIsPrefixOf, Bool.and_eq_true] at hp
    exact ⟨t, by rw [eq_of_ciEqChar_left (by decide) hp.1]⟩

theorem SegGood.ctag_cons {g : H2Seg} (hg : SegGood g) :
    ∃ t, g.ctag = '<' :: t := by
  cases ho : g.ctag with
  | nil => have := hg.clen; rw [ho] at this; simp at this
  | cons c t =>
    have hp := hg.cpre
    rw [ho] at hp
    simp only [h2close, ciIsPrefixOf, Bool.and_eq_true] at hp
    exact ⟨t, by rw [eq_of_ciEqChar_left (by decide) hp.1]⟩

theorem cleanOf_min {pat pre r : List Char} (hne : pat ≠ [])
    (hmin : ∀ n, n < pre.length → ciIsPrefixOf pat (pre.drop n ++ r) = false) :
    ∀ n, ciIsPrefixOf pat (pre.drop n) = false := by
  intro n
  by_cases hn : n < pre.length
  · by_contra hx
    rw [Bool.not_eq_false] at hx
    have h2 := ciIsPrefixOf_append_right r hx
    rw [hmin n hn] at h2
    exact absurd h2 (by simp)
  · have hnil : pre.drop n = [] := by rw [List.drop_eq_nil_iff]; omega
    rw [hnil]
    cases pat with
    | nil => exact absurd rfl hne
    | cons p ps => rfl

theorem h2Match_rebuild {g : H2Seg} (hg : SegGood g) (y : List Char) :
    h2Match (renderSeg g y) = some (g, y) := by
  obtain ⟨ot, ho⟩ := hg.otag_cons
  obtain ⟨ct, hc⟩ := hg.ctag_cons
  have hpre1 : ciIsPrefixOf h2open (g.otag ++ (g.inner ++ (g.ctag ++ y))) = true :=
    ciIsPrefixOf_append_right _ hg.opre
  have hfirst1 : firstOccCi h2open (g.otag ++ (g.inner ++ (g.ctag ++ y))) =
      some ([], g.otag ++ (g.inner ++ (g.ctag ++ y))) := by
    rw [ho, List.cons_append]
    rw [ho, List.cons_append] at hpre1
    exact firstOccCi_cons_pos hpre1
  have hopen : firstOccCi h2open (renderSeg g y) =
      some (g.pre, g.otag ++ (g.inner ++ (g.ctag ++ y))) := by
    have hH : ∀ n, n < g.pre.length →
        ciIsPrefixOf h2open (g.pre.drop n ++ (g.otag ++ (g.inner ++ (g.ctag ++ y)))) = false := by
      rw [ho]
      exact noPrefixAt_of_clean _ hg.preClean (by decide)
    have happ := @firstOccCi_append h2open g.pre
      (g.otag ++ (g.inner ++ (g.ctag ++ y))) hH
    rw [renderSeg, happ, hfirst1]
    simp
  have hpre2 : ciIsPrefixOf h2close (g.ctag ++ y) = true :=
    ciIsPrefixOf_append_right _ hg.cpre
  have hfirst2 : firstOccCi h2close (g.ctag ++ y) = some ([], g.ctag ++ y) := by
    rw [hc, List.cons_append]
    rw [hc, List.cons_append] at hpre2
    exact firstOccCi_cons_pos hpre2
  have hclose : firstOccCi h2close (g.inner ++ (g.ctag ++ y)) =
      some (g.inner, g.ctag ++ y) := by
    have hH : ∀ n, n < g.inner.length →
        ciIsPrefixOf h2close (g.inner.drop n ++ (g.ctag ++ y)) = false := by
      rw [hc]
      exact noPrefixAt_of_clean _ hg.innerClean (by decide)
    have happ := @firstOccCi_append h2close g.inner (g.ctag ++ y) hH
    rw [happ, hfirst2]
    simp
  have hdrop : (g.otag ++ (g.inner ++ (g.ctag ++ y))).drop 4 =
      g.inner ++ (g.ctag ++ y) := by
    rw [← hg.olen, List.drop_left]
  have htake : (g.otag ++ (g.inner ++ (g.ctag ++ y))).take 4 = g.otag := by
    rw [← hg.olen, List.take_left]
  have htake5 : (g.ctag ++ y).take 5 = g.ctag := by
    rw [← hg.clen, List.take_left]
  have hdrop5 : (g.ctag ++ y).drop 5 = y := by
    rw [← hg.clen, List.drop_left]
  unfold h2Match
  rw [hopen]
  dsimp only
  rw [hdrop, hclose]
  dsimp only
  rw [htake, htake5, hdrop5]

theorem h2Match_decomp {s : List Char} {g : H2Seg} {rest : List Char}
    (h : h2Match s = some (g, rest)) :
    s = renderSeg g rest ∧ SegGood g := by
  unfold h2Match at h
  cases h1 : firstOccCi h2open s with
  | none => rw [h1] at h; simp at h
  | some pr1 =>
    obtain ⟨pre, r1⟩ := pr1
    rw [h1] at h
    dsimp only at h
    cases h2 : firstOccCi h2close (r1.drop 4) with
    | none => rw [h2] at h; simp at h
    | some pr2 =>
      obtain ⟨mid, r2⟩ := pr2
      rw [h2] at h
      dsimp only at h
      injection h with h3
      injection h3 with hg3 hrest
      subst hg3; subst hrest
      obtain ⟨he1, hp1⟩ := firstOccCi_decomp h1
      obtain ⟨he2, hp2⟩ := firstOccCi_decomp h2
      have hlen1 : 4 ≤ r1.length := by
        have := ciIsPrefixOf_length_le hp1
        simpa [h2open] using this
      have hlen2 : 5 ≤ r2.length := by
        have := ciIsPrefixOf_length_le hp2
        simpa [h2close] using this
      have hopre : ciIsPrefixOf h2open (r1.take 4) = true := by
        have hsplit : r1 = r1.take 4 ++ r1.drop 4 := (List.take_append_drop 4 r1).symm
        have := @ciIsPrefixOf_take h2open _ _ (hsplit ▸ hp1)
        rwa [List.length_take, Nat.min_eq_left hlen1,
          show h2open.take 4 = h2open from rfl] at this
      have hcpre : ciIsPrefixOf h2close (r2.take 5) = true := by
        have hsplit : r2 = r2.take 5 ++ r2.drop 5 := (List.take_append_drop 5 r2).symm
        have := @ciIsPrefixOf_take h2close _ _ (hsplit ▸ hp2)
        rwa [List.length_take, Nat.min_eq_left hlen2,
          show h2close.take 5 = h2close from rfl] at this
      constructor
      · rw [renderSeg]
        simp only
        rw [he1]
        congr 1
        conv_lhs => rw [← List.take_append_drop 4 r1]
        congr 1
        rw [he2]
        congr 1
        conv_lhs => rw [← List.take_append_drop 5 r2]
      · exact
          { olen := by rw [List.length_take]; omega
            opre := hopre
            clen := by rw [List.length_take]; omega
            cpre := hcpre
            preClean := cleanOf_min (by decide) (firstOccCi_min h1)
            innerClean := cleanOf_min (by decide) (firstOccCi_min h2) }

theorem h2Match_length {s : List Char} {g : H2Seg} {rest : List Char}
    (h : h2Match s = some (g, rest)) : rest.length + 9 ≤ s.length := by
  obtain ⟨he, hg⟩ := h2Match_decomp h
  rw [he]
  simp only [renderSeg, List.length_append, hg.olen, hg.clen]
  omega

theorem h2Match_nil : h2Match ([] : List Char) = none := rfl

/-! ## Fuel elimination for the H2 scanners -/

theorem length_le_zero_nil {s : List Char} (h : s.length ≤ 0) : s = [] := by
  cases s with
  | nil => rfl
  | cons c cs => simp at h

theorem countH2Go_fuel_eq : ∀ (f1 f2 : Nat) (s : List Char),
    s.length ≤ f1 → s.length ≤ f2 → countH2Go f1 s = countH2Go f2 s := by
  intro f1
  induction f1 with
  | zero =>
    intro f2 s h1 _
    rw [length_le_zero_nil h1]
    cases f2 with
    | zero => rfl
    | succ m => simp [countH2Go, h2Match_nil]
  | succ f ih =>
    intro f2 s h1 h2
    cases f2 with
    | zero =>
      rw [length_le_zero_nil h2]
      simp [countH2Go, h2Match_nil]
    | succ m =>
      show countH2Go (f + 1) s = countH2Go (m + 1) s
      unfold countH2Go
      cases hm : h2Match s with
      | none => rfl
      | some pr =>
        obtain ⟨g, rest⟩ := pr
        have hl := h2Match_length hm
        dsimp only
        rw [ih m rest (by omega) (by omega)]

theorem count_h2_unfold (s : List Char) :
    count_h2 s = match h2Match s with
      | none => 0
      | some (_, rest) => count_h2 rest + 1 := by
  cases hm : h2Match s with
  | none =>
    cases s with
    | nil => rfl
    | cons c cs =>
      show countH2Go (cs.length + 1) (c :: cs) = 0
      unfold countH2Go
      rw [hm]
  | some pr =>
    obtain ⟨g, rest⟩ := pr
    cases s with
    | nil => rw [h2Match_nil] at hm; simp at hm
    | cons c cs =>
      have hl := h2Match_length hm
      show countH2Go (cs.length + 1) (c :: cs) = count_h2 rest + 1
      unfold countH2Go
      rw [hm]
      dsimp only
      rw [countH2Go_fuel_eq cs.length rest.length rest (by simp at hl; omega) (le_refl _)]
      rfl

theorem h2SegsGo_fuel_eq : ∀ (f1 f2 : Nat) (s : List Char),
    s.length ≤ f1 → s.length ≤ f2 → h2SegsGo f1 s = h2SegsGo f2 s := by
  intro f1
  induction f1 with
  | zero =>
    intro f2 s h1 _
    rw [length_le_zero_nil h1]
    cases f2 with
    | zero => rfl
    | succ m => simp [h2SegsGo, h2Match_nil]
  | succ f ih =>
    intro f2 s h1 h2
    cases f2 with
    | zero =>
      rw [length_le_zero_nil h2]
      simp [h2SegsGo, h2Match_nil]
    | succ m =>
      show h2SegsGo (f + 1) s = h2SegsGo (m + 1) s
      unfold h2SegsGo
      cases hm : h2Match s with
      | none => rfl
      | some pr =>
        obtain ⟨g, rest⟩ := pr
        have hl := h2Match_length hm
        dsimp only
        rw [ih m rest (by omega) (by omega)]

theorem h2Segs_unfold (s : List Char) :
    h2Segs s = match h2Match s with
      | none => ([], s)
      | some (g, rest) => (g :: (h2Segs rest).1, (h2Segs rest).2) := by
  cases hm : h2Match s with
  | none =>
    cases s with
    | nil => rfl
    | cons c cs =>
      show h2SegsGo (cs.length + 1) (c :: cs) = _
      unfold h2SegsGo
      rw [hm]
  | some pr =>
    obtain ⟨g, rest⟩ := pr
    cases s with
    | nil => rw [h2Match_nil] at hm; simp at hm
    | cons c cs =>
      have hl := h2Match_length hm
      show h2SegsGo (cs.length + 1) (c :: cs) = _
      unfold h2SegsGo
      rw [hm]
      dsimp only
      rw [h2SegsGo_fuel_eq cs.length rest.length rest (by simp at hl; omega) (le_refl _)]
      rfl

/-! ## Recomposition: `h2Segs` tiles the document -/

theorem h2Segs_spec (s : List Char) :
    renderSegs (h2Segs s).1 (h2Segs s).2 = s
    ∧ (∀ g ∈ (h2Segs s).1, SegGood g)
    ∧ h2Match (h2Segs s).2 = none := by
  generalize hn : s.length = n
  induction n using Nat.strong_induction_on generalizing s with
  | _ n ih =>
    subst hn
    rw [h2Segs_unfold]
    cases hm : h2Match s with
    | none => exact ⟨rfl, by simp, hm⟩
    | some pr =>
      obtain ⟨g, rest⟩ := pr
      obtain ⟨he, hg⟩ := h2Match_decomp hm
      have hl := h2Match_length hm
      obtain ⟨ih1, ih2, ih3⟩ := ih rest.length (by omega) rest rfl
      dsimp only
      refine ⟨?_, ?_, ih3⟩
      · show renderSeg g (renderSegs (h2Segs rest).1 (h2Segs rest).2) = s
        rw [ih1, ← he]
      · intro g2 hg2
        rcases List.mem_cons.mp hg2 with h | h
        · exact h ▸ hg
        · exact ih2 g2 h

theorem count_h2_renderSeg {g : H2Seg} (hg : SegGood g) (y : List Char) :
    count_h2 (renderSeg g y) = count_h2 y + 1 := by
  rw [count_h2_unfold, h2Match_rebuild hg]

theorem count_h2_of_match_none {s : List Char} (h : h2Match s = none) :
    count_h2 s = 0 := by
  rw [count_h2_unfold, h]

theorem count_h2_renderSegs {segs : List H2Seg} (y : List Char)
    (hs : ∀ g ∈ segs, SegGood g) :
    count_h2 (renderSegs segs y) = segs.length + count_h2 y := by
  induction segs with
  | nil => simp [renderSegs]
  | cons g gs ih =>
    show count_h2 (renderSeg g (renderSegs gs y)) = (g :: gs).length + count_h2 y
    rw [count_h2_renderSeg (hs g (List.mem_cons_self g gs)),
      ih (fun g2 h2 => hs g2 (List.mem_cons_of_mem g h2))]
    simp
    omega

theorem count_h2_eq_segs_length (s : List Char) :
    count_h2 s = (h2Segs s).1.length := by
  obtain ⟨h1, h2, h3⟩ := h2Segs_spec s
  conv_lhs => rw [← h1]
  rw [count_h2_renderSegs _ h2, count_h2_of_match_none h3]
  omega

theorem count_h2_of_clean {a : List Char}
    (hclean : ∀ n, ciIsPrefixOf h2open (a.drop n) = false) :
    count_h2 a = 0 := by
  rw [count_h2_unfold]
  cases hm : h2Match a with
  | none => rfl
  | some pr =>
    obtain ⟨g, rest⟩ := pr
    obtain ⟨he, hg⟩ := h2Match_decomp hm
    have hcontra : ciIsPrefixOf h2open (a.drop g.pre.length) = true := by
      rw [he, renderSeg, List.drop_left]
      exact ciIsPrefixOf_append_right _ hg.opre
    rw [hclean g.pre.length] at hcontra
    simp at hcontra

/-! ## `trim_h2_max`: section-budget analysis -/

/-- The text that follows the `n`-th kept header in the trimmed output:
the next match's `pre`, or the final tail when everything is kept. -/
def followAt (segs : List H2Seg) (tail : List Char) (n : Nat) : List Char :=
  match segs.drop n with
  | [] => tail
  | g :: _ => g.pre

theorem trim_body_eq : ∀ (gs : List H2Seg) (g : H2Seg) (tail : List Char) (N : Nat),
    g.pre ++ (((segFollows (g :: gs) tail).take N).map
        (fun p => p.1.chunk ++ p.2)).flatten
      = renderSegs ((g :: gs).take N) (followAt (g :: gs) tail N) := by
  intro gs
  induction gs with
  | nil =>
    intro g tail N
    cases N with
    | zero => simp [segFollows, followAt, renderSegs]
    | succ m =>
      simp [segFollows, followAt, renderSegs, renderSeg, H2Seg.chunk,
        List.append_assoc]
  | cons g2 gs2 ih =>
    intro g tail N
    cases N with
    | zero => simp [followAt, renderSegs]
    | succ m =>
      have hih := ih g2 tail m
      rw [segFollows]
      simp only [List.take_succ_cons, List.map_cons, List.flatten_cons]
      have hstep : renderSegs (g :: List.take m (g2 :: gs2))
          (followAt (g :: g2 :: gs2) tail (m + 1))
          = renderSeg g (renderSegs (List.take m (g2 :: gs2))
              (followAt (g2 :: gs2) tail m)) := rfl
      rw [hstep, ← hih, renderSeg, H2Seg.chunk]
      simp [List.append_assoc]

theorem count_h2_followAt {segs : List H2Seg} {tail : List Char} {s : List Char}
    (hsegs : h2Segs s = (segs, tail)) (N : Nat) :
    count_h2 (followAt segs tail N) = 0 := by
  obtain ⟨h1, h2, h3⟩ := h2Segs_spec s
  rw [hsegs] at h1 h2 h3
  unfold followAt
  cases hd : segs.drop N with
  | nil => exact count_h2_of_match_none h3
  | cons g2 rest =>
    have hmem : g2 ∈ segs := List.mem_of_mem_drop (hd ▸ List.mem_cons_self g2 rest)
    exact count_h2_of_clean (h2 g2 hmem).preClean

theorem count_h2_trim_h2_max (s : List Char) (N : Nat) :
    count_h2 (trim_h2_max s N) = min (count_h2 s) N := by
  obtain ⟨h1, h2, h3⟩ := h2Segs_spec s
  rw [count_h2_eq_segs_length s]
  unfold trim_h2_max
  rcases hseg : h2Segs s with ⟨segs, tail⟩
  rw [hseg] at h1 h2 h3
  simp only at h1 h2 h3
  cases segs with
  | nil =>
    simp only
    rw [show renderSegs [] tail = tail from rfl] at h1
    rw [h1]
    simp [count_h2_eq_segs_length s, hseg]
  | cons g gs =>
    simp only
    rw [trim_body_eq gs g tail N]
    rw [count_h2_renderSegs _ (fun g2 hmem =>
      h2 g2 (List.mem_of_mem_take hmem))]
    rw [count_h2_followAt hseg N]
    rw [List.length_take]
    omega

/-! ## Visible-length machinery -/

theorem dropAfterGt_length {l r : List Char} (h : dropAfterGt l = some r) :
    r.length < l.length := by
  induction l generalizing r with
  | nil => simp [dropAfterGt] at h
  | cons c cs ih =>
    unfold dropAfterGt at h
    split at h
    · injection h with h2; subst h2; simp
    · have := ih h; simp; omega

theorem stripTagsDotallGo_length_le : ∀ (f : Nat) (s : List Char),
    (stripTagsDotallGo f s).length ≤ s.length := by
  intro f
  induction f with
  | zero => intro s; simp [stripTagsDotallGo]
  | succ f ih =>
    intro s
    cases s with
    | nil => simp [stripTagsDotallGo]
    | cons c cs =>
      unfold stripTagsDotallGo
      split
      · cases hd : dropAfterGt cs with
        | some rest =>
          have hlen : rest.length < cs.length := dropAfterGt_length hd
          have := ih rest
          simp only [List.length_cons]
          omega
        | none =>
          have := ih cs
          simp only [List.length_cons]
          omega
      · have := ih cs
        simp only [List.length_cons]
        omega

theorem pyRstrip_length_le (s : List Char) : (pyRstrip s).length ≤ s.length := by
  unfold pyRstrip
  rw [List.length_reverse]
  calc (s.reverse.dropWhile isPySpace).length ≤ s.reverse.length :=
        (List.dropWhile_sublist _).length_le
    _ = s.length := List.length_reverse s

theorem pyStrip_length_le (s : List Char) : (pyStrip s).length ≤ s.length := by
  unfold pyStrip pyLstrip
  calc ((pyRstrip s).dropWhile isPySpace).length ≤ (pyRstrip s).length :=
        (List.dropWhile_sublist _).length_le
    _ ≤ s.length := pyRstrip_length_le s

theorem visible_length_le_length (s : List Char) : visible_length s ≤ s.length := by
  unfold visible_length stripTagsDotall
  calc (pyStrip (stripTagsDotallGo s.length s)).length
      ≤ (stripTagsDotallGo s.length s).length := pyStrip_length_le _
    _ ≤ s.length := stripTagsDotallGo_length_le _ _

theorem visible_length_nil : visible_length [] = 0 := rfl

theorem visible_length_trimByPAcc (L : Nat) : ∀ (us : List (List Char)) (out : List Char),
    visible_length out ≤ L → visible_length (trimByPAcc L out us) ≤ L := by
  intro us
  induction us with
  | nil => intro out h; exact h
  | cons p ps ih =>
    intro out h
    unfold trimByPAcc
    split
    · exact ih _ (by assumption)
    · exact h

theorem visible_length_trimByP (b : List Char) (L : Nat) :
    visible_length (trimByP b L) ≤ L := by
  unfold trimByP
  split
  · calc visible_length (b.take L) ≤ (b.take L).length := visible_length_le_length _
      _ ≤ L := by simp
  · exact visible_length_trimByPAcc L (pUnits b) [] (by rw [visible_length_nil]; omega)

/-! ## Claims C3 and C4 -/

/-- C3: for every document `D` and every `N ≥ 0`,
`count_h2 (trim_h2_max D N) ≤ N`: trimming to a section budget never
leaves more than `N` level-2 headers in the result. -/
theorem claim_C3_section_budget (D : List Char) (N : Nat) :
    count_h2 (trim_h2_max D N) ≤ N := by
  rw [count_h2_trim_h2_max]
  omega

/-- C4: for every document `D` and every limit `L ≥ 0`,
`visible_length (trim_to_max_chars D L) ≤ L`, where `visible_length` is
the character count after all markup is removed and surrounding
whitespace trimmed; and trimming never increases visible length. -/
theorem claim_C4_length_budget (D : List Char) (L : Nat) :
    visible_length (trim_to_max_chars D L) ≤ L
    ∧ visible_length (trim_to_max_chars D L) ≤ visible_length D := by
  unfold trim_to_max_chars
  by_cases h : visible_length D ≤ L
  · rw [if_pos h]
    exact ⟨h, le_refl _⟩
  · rw [if_neg h]
    push_neg at h
    split
    · have htake : visible_length (D.take L) ≤ L := by
        calc visible_length (D.take L) ≤ (D.take L).length :=
              visible_length_le_length _
          _ ≤ L := by simp
      exact ⟨htake, by omega⟩
    · have hacc : visible_length (trimByPAcc L [] (pUnits D)) ≤ L :=
        visible_length_trimByPAcc L (pUnits D) [] (by rw [visible_length_nil]; omega)
      exact ⟨hacc, by omega⟩

/-! ## Claim C7: greedy paragraph-unit accumulation -/

theorem trimByPAcc_spec (L : Nat) : ∀ (us : List (List Char)) (out : List Char),
    visible_length out ≤ L →
    ∃ j, j ≤ us.length
      ∧ trimByPAcc L out us = out ++ (us.take j).flatten
      ∧ visible_length (out ++ (us.take j).flatten) ≤ L
      ∧ (j < us.length → L < visible_length (out ++ (us.take (j + 1)).flatten)) := by
  intro us
  induction us with
  | nil =>
    intro out h
    exact ⟨0, by simp, by simp [trimByPAcc], by simpa using h, by simp⟩
  | cons p ps ih =>
    intro out h
    unfold trimByPAcc
    by_cases hfit : visible_length (out ++ p) ≤ L
    · rw [if_pos hfit]
      obtain ⟨j, hj1, hj2, hj3, hj4⟩ := ih (out ++ p) hfit
      refine ⟨j + 1, by simpa using hj1, ?_, ?_, ?_⟩
      · rw [hj2]; simp [List.append_assoc]
      · simpa [List.append_assoc] using hj3
      · intro hlt
        have := hj4 (by simpa using Nat.lt_of_succ_lt_succ hlt)
        simpa [List.append_assoc] using this
    · rw [if_neg hfit]
      push_neg at hfit
      exact ⟨0, by simp, by simp, by simpa using h, fun _ => by simpa using hfit⟩

/-- C7 (counterexample): for the document `"<p>ABCDE</p>"` (one
paragraph unit of visible length 5) and limit 3, `trim_to_max_chars`
returns `"<p>"`, a cut *inside* the only paragraph unit — the units of
the document are `["<p>ABCDE</p>", ""]`, so the only whole-unit
prefixes are `""` and the full document, and the result is neither.
This refutes "never splits inside a unit". -/
theorem claim_C7_counterexample :
    trim_to_max_chars "<p>ABCDE</p>".data 3 = "<p>".data
    ∧ pUnits "<p>ABCDE</p>".data = ["<p>ABCDE</p>".data, []]
    ∧ trim_to_max_chars "<p>ABCDE</p>".data 3 ≠ ([] : List Char)
    ∧ trim_to_max_chars "<p>ABCDE</p>".data 3 ≠ "<p>ABCDE</p>".data := by
  decide

/-- C7 (amended): for every document whose visible length exceeds the
limit, `trim_to_max_chars` accumulates whole paragraph-like units
greedily from the start — the result is the prefix of `j` whole units
such that unit `j + 1` (if any) would exceed the budget — *provided at
least one whole unit fits*; when not even the first unit fits (the
accumulated prefix is empty), it falls back to the raw character slice
`html[:limit]`, which may split inside a unit.  The two scenario
instances from the claim hold as stated. -/
theorem claim_C7_amended :
    (∀ (s : List Char) (L : Nat), L < visible_length s →
      ∃ j, j ≤ (pUnits s).length
        ∧ visible_length (((pUnits s).take j).flatten) ≤ L
        ∧ (j < (pUnits s).length →
            L < visible_length (((pUnits s).take (j + 1)).flatten))
        ∧ (((pUnits s).take j).flatten ≠ [] →
            trim_to_max_chars s L = ((pUnits s).take j).flatten)
        ∧ (((pUnits s).take j).flatten = [] →
            trim_to_max_chars s L = s.take L))
    ∧ trim_to_max_chars "<p>A</p><p>B</p><p>C</p>".data 3
        = "<p>A</p><p>B</p><p>C</p>".data
    ∧ trim_to_max_chars "<p>A</p><p>B</p><p>C</p>".data 2
        = "<p>A</p><p>B</p>".data := by
  refine ⟨?_, by decide, by decide⟩
  intro s L hL
  obtain ⟨j, hj1, hj2, hj3, hj4⟩ :=
    trimByPAcc_spec L (pUnits s) [] (by rw [visible_length_nil]; omega)
  simp only [List.nil_append] at hj2 hj3 hj4
  have htrim : trim_to_max_chars s L =
      if (trimByPAcc L [] (pUnits s)).isEmpty then s.take L
      else trimByPAcc L [] (pUnits s) := by
    unfold trim_to_max_chars
    rw [if_neg (by omega)]
  refine ⟨j, hj1, hj3, hj4, ?_, ?_⟩
  · intro hne
    rw [htrim, hj2, if_neg (by simpa using hne)]
  · intro hemp
    rw [htrim, hj2, if_pos (by simpa using hemp)]

/-- C7 (witness): the amended statement applied to the concrete
scenario document with limit 2. -/
theorem claim_C7_amended_witness :
    2 < visible_length "<p>A</p><p>B</p><p>C</p>".data
    ∧ ∃ j, j ≤ (pUnits "<p>A</p><p>B</p><p>C</p>".data).length
      ∧ visible_length (((pUnits "<p>A</p><p>B</p><p>C</p>".data).take j).flatten) ≤ 2
      ∧ (j < (pUnits "<p>A</p><p>B</p><p>C</p>".data).length →
          2 < visible_length (((pUnits "<p>A</p><p>B</p><p>C</p>".data).take (j + 1)).flatten))
      ∧ (((pUnits "<p>A</p><p>B</p><p>C</p>".data).take j).flatten ≠ [] →
          trim_to_max_chars "<p>A</p><p>B</p><p>C</p>".data 2 =
            ((pUnits "<p>A</p><p>B</p><p>C</p>".data).take j).flatten)
      ∧ (((pUnits "<p>A</p><p>B</p><p>C</p>".data).take j).flatten = [] →
          trim_to_max_chars "<p>A</p><p>B</p><p>C</p>".data 2 =
            "<p>A</p><p>B</p><p>C</p>".data.take 2) :=
  ⟨by decide, claim_C7_amended.1 "<p>A</p><p>B</p><p>C</p>".data 2 (by decide)⟩

/-! ## Claims C1, C8, C9: concrete evaluations at the failing inputs -/

/-- C1 (code bug): `enforce_summary_last` is *not* idempotent.  At the
plain input `"hello"` (keyword `"k"`, total 2) the first application
returns `"hello\n<h2>kに関するまとめ</h2>\n"`; the second application's
stripping step classifies the single `<h2>` section as a summary
section and — because the `last_end < m.start()` pre-text append on
line 196 sits inside the *kept* branch — silently discards the leading
text `"hello"`, so the second application returns only
`"\n<h2>kに関するまとめ</h2>\n"`. -/
theorem claim_C1_not_idempotent :
    enforce_summary_last (enforce_summary_last "hello".data "k".data 2) "k".data 2
      ≠ enforce_summary_last "hello".data "k".data 2
    ∧ enforce_summary_last "hello".data "k".data 2
        = "hello\n<h2>kに関するまとめ</h2>\n".data
    ∧ enforce_summary_last (enforce_summary_last "hello".data "k".data 2) "k".data 2
        = "\n<h2>kに関するまとめ</h2>\n".data := by
  decide

/-- C8 (code bug): `strip_existing_summary_h2` deletes the leading
pre-text when the *first* level-2 section is a summary section.  On
`"x<h2>まとめ</h2>y"` the claim (and the code's own line-195 comment
"直前のテキスト片を保持") promises the pre-text `"x"` is preserved, but
the result is the empty string: the pre-text append on line 196 is
inside the kept-section branch, so a skipped first section drops it. -/
theorem claim_C8_pretext_dropped :
    strip_existing_summary_h2 "x<h2>まとめ</h2>y".data = [] := by
  decide

/-- C9 (code bug): the strict length-control loop never requests fill
text.  With visible length 5 below `min_chars = 1000` and attempts
available, the fill branch is entered but line 915 evaluates the
undefined names `content` and `needed_chars`, so a `NameError` is
raised before any request is issued and the bare
`except Exception: break` aborts the loop: the document is returned
as-is. -/
theorem claim_C9_fill_never_requests :
    strictAdjustLoop 3 1000 2000 "<p>short</p>".data = "<p>short</p>".data := by
  decide

/-! ## Claim C10: `cap_summary` -/

/-- C10 (counterexample): the detector is *not* "title contains the
marker word".  The document `"<h2>xまとめ</h2><p>abcd</p>"` has a single
level-2 section whose title `xまとめ` contains `まとめ` and whose
visible length is 8 > 1, yet `cap_summary` with limit 1 returns it
unchanged, because `_summary_span` searches for the exact pattern
`(?i)<h2>\s*まとめ\s*</h2>`. -/
theorem claim_C10_counterexample :
    cap_summary "<h2>xまとめ</h2><p>abcd</p>".data 1
      = "<h2>xまとめ</h2><p>abcd</p>".data
    ∧ occursB matome (sectionTitle "xまとめ".data) = true
    ∧ 1 < visible_length "<h2>xまとめ</h2><p>abcd</p>".data := by
  decide

/-- C10 (amended): `cap_summary html limit` caps the closing section
identified by an *exact* `<h2>まとめ</h2>` header (whitespace-padded,
tag match case-insensitive) — not any header merely containing the
marker.  When no such header exists the document is unchanged; when it
exists, the section — from the matched header to the next
(case-insensitive) `<h2>` or the end of document — is replaced by its
`_trim_by_p` trimming, whose visible length is at most `limit`, and
everything outside the section is byte-for-byte unchanged.  The cap is
applied before the whole-document budget (lines 931–938): the final
result either satisfies the document budget or is exactly the capped
document. -/
theorem claim_C10_amended :
    (∀ (s : List Char) (L : Nat),
      (findSummaryHead s = none → cap_summary s L = s)
      ∧ (∀ head matched after,
          findSummaryHead s = some (head, matched, after) →
          ∃ body tail, matched ++ after = body ++ tail
            ∧ cap_summary s L = head ++ (trimByP body L ++ tail)
            ∧ visible_length (trimByP body L) ≤ L))
    ∧ (∀ (html : List Char) (max_chars : Nat),
        visible_length (finalizeLengths html max_chars) ≤ max_chars
        ∨ finalizeLengths html max_chars = cap_summary html 320) := by
  constructor
  · intro s L
    constructor
    · intro h
      unfold cap_summary
      rw [h]
    · intro head matched after h
      unfold cap_summary
      rw [h]
      dsimp only
      cases h2 : firstOccCi h2open after with
      | none =>
        refine ⟨matched ++ after, [], by simp, ?_, visible_length_trimByP _ _⟩
        simp
      | some pr =>
        obtain ⟨mid, rest⟩ := pr
        obtain ⟨he, _⟩ := firstOccCi_decomp h2
        refine ⟨matched ++ mid, rest, ?_, ?_, visible_length_trimByP _ _⟩
        · rw [he]; simp [List.append_assoc]
        · simp
  · intro html max_chars
    unfold finalizeLengths
    split
    · exact Or.inl (claim_C4_length_budget _ _).1
    · exact Or.inr rfl

/-- C10 (witness): the amended statement applied to a document with an
exact summary header and limit 3. -/
theorem claim_C10_amended_witness :
    findSummaryHead "<h2>まとめ</h2><p>abcdef</p>".data
      = some ([], "<h2>まとめ</h2>".data, "<p>abcdef</p>".data)
    ∧ ∃ body tail,
        "<h2>まとめ</h2>".data ++ "<p>abcdef</p>".data = body ++ tail
        ∧ cap_summary "<h2>まとめ</h2><p>abcdef</p>".data 3
            = [] ++ (trimByP body 3 ++ tail)
        ∧ visible_length (trimByP body 3) ≤ 3 :=
  ⟨by decide,
    (claim_C10_amended.1 "<h2>まとめ</h2><p>abcdef</p>".data 3).2
      [] "<h2>まとめ</h2>".data "<p>abcdef</p>".data (by decide)⟩

/-! ## Substring and stripping utilities -/

theorem occursB_nil (s : List Char) : occursB [] s = true := by
  cases s <;> simp [occursB, isPrefixOfB]

theorem isPrefixOfB_self_append (k w : List Char) :
    isPrefixOfB k (k ++ w) = true := by
  induction k with
  | nil => rfl
  | cons c cs ih => simp [isPrefixOfB, ih]

theorem occursB_of_prefixB {pat s : List Char} (h : isPrefixOfB pat s = true) :
    occursB pat s = true := by
  cases s with
  | nil => simpa [occursB] using h
  | cons c cs => simp [occursB, h]

theorem occursB_append_right {pat w : List Char} (u : List Char)
    (h : occursB pat w = true) : occursB pat (u ++ w) = true := by
  induction u with
  | nil => simpa using h
  | cons c cs ih => simp [occursB, ih]

theorem occursB_self_append (k w : List Char) : occursB k (k ++ w) = true :=
  occursB_of_prefixB (isPrefixOfB_self_append k w)

theorem pyRstrip_append (u v : List Char) :
    pyRstrip (u ++ v) =
      if (pyRstrip v).isEmpty then pyRstrip u else u ++ pyRstrip v := by
  unfold pyRstrip
  rw [List.reverse_append, List.dropWhile_append]
  have hiff : (v.reverse.dropWhile isPySpace).isEmpty
      = ((v.reverse.dropWhile isPySpace).reverse).isEmpty := by
    cases hv : v.reverse.dropWhile isPySpace <;> simp [hv]
  split
  · rw [if_pos (by rw [← hiff]; assumption)]
  · rw [if_neg (by rw [← hiff]; assumption)]
    rw [List.reverse_append, List.reverse_reverse]

theorem pyRstrip_eq_self_of_strip {k : List Char} (h : pyStrip k = k) :
    pyRstrip k = k := by
  have h1 : (pyStrip k).length = k.length := by rw [h]
  have h2 : (pyStrip k).length ≤ (pyRstrip k).length := by
    unfold pyStrip pyLstrip
    exact (List.dropWhile_sublist _).length_le
  have h3 : (pyRstrip k).length ≤ k.length := pyRstrip_length_le k
  have h6 : (pyRstrip k).length = k.length := by omega
  have h7 : (pyRstrip k).length = (k.reverse.dropWhile isPySpace).length := by
    unfold pyRstrip
    rw [List.length_reverse]
  have h4 : (k.reverse.dropWhile isPySpace).length = k.reverse.length := by
    rw [List.length_reverse]
    omega
  have h5 : k.reverse.dropWhile isPySpace = k.reverse :=
    (List.dropWhile_suffix _).eq_of_length h4
  unfold pyRstrip
  rw [h5, List.reverse_reverse]

theorem pyLstrip_eq_self_of_strip {k : List Char} (h : pyStrip k = k) :
    pyLstrip k = k := by
  have hr := pyRstrip_eq_self_of_strip h
  unfold pyStrip at h
  rwa [hr] at h

theorem pyLstrip_append_cases (A B : List Char) :
    pyLstrip (A ++ B) = pyLstrip B ∨ ∃ d, pyLstrip (A ++ B) = d ++ B := by
  unfold pyLstrip
  rw [List.dropWhile_append]
  split
  · exact Or.inl rfl
  · exact Or.inr ⟨A.dropWhile isPySpace, rfl⟩

theorem exists_pyRstrip_decomp (s : List Char) :
    ∃ w, s = pyRstrip s ++ w ∧ ∀ c ∈ w, isPySpace c = true := by
  refine ⟨(s.reverse.takeWhile isPySpace).reverse, ?_, ?_⟩
  · unfold pyRstrip
    rw [← List.reverse_append, List.takeWhile_append_dropWhile, List.reverse_reverse]
  · intro c hc
    rw [List.mem_reverse] at hc
    exact List.mem_takeWhile_imp hc

/-! ## `stripTagsLine` lemmas -/

theorem dropAfterGtLine_length {l r : List Char} (h : dropAfterGtLine l = some r) :
    r.length < l.length := by
  induction l generalizing r with
  | nil => simp [dropAfterGtLine] at h
  | cons c cs ih =>
    unfold dropAfterGtLine at h
    split at h
    · injection h with h2; subst h2; simp
    · split at h
      · exact absurd h (by simp)
      · have := ih h; simp; omega

theorem stripTagsLineGo_fuel_eq : ∀ (f1 f2 : Nat) (s : List Char),
    s.length ≤ f1 → s.length ≤ f2 →
    stripTagsLineGo f1 s = stripTagsLineGo f2 s := by
  intro f1
  induction f1 with
  | zero =>
    intro f2 s h1 _
    rw [length_le_zero_nil h1]
    cases f2 <;> simp [stripTagsLineGo]
  | succ f ih =>
    intro f2 s h1 h2
    cases f2 with
    | zero =>
      rw [length_le_zero_nil h2]
      simp [stripTagsLineGo]
    | succ m =>
      cases s with
      | nil => simp [stripTagsLineGo]
      | cons c cs =>
        show stripTagsLineGo (f + 1) (c :: cs) = stripTagsLineGo (m + 1) (c :: cs)
        unfold stripTagsLineGo
        simp only [List.length_cons] at h1 h2
        split
        · cases hd : dropAfterGtLine cs with
          | some rest =>
            have := dropAfterGtLine_length hd
            exact ih m rest (by omega) (by omega)
          | none =>
            rw [ih m cs (by omega) (by omega)]
        · rw [ih m cs (by omega) (by omega)]

theorem stripTagsLine_cons_not_lt {c : Char} (s : List Char) (h : ¬c = '<') :
    stripTagsLine (c :: s) = c :: stripTagsLine s := by
  show stripTagsLineGo (s.length + 1) (c :: s) = _
  unfold stripTagsLineGo
  rw [if_neg h]
  rfl

theorem stripTagsLine_lt_some {cs rest : List Char}
    (h : dropAfterGtLine cs = some rest) :
    stripTagsLine ('<' :: cs) = stripTagsLine rest := by
  show stripTagsLineGo (cs.length + 1) ('<' :: cs) = _
  unfold stripTagsLineGo
  rw [if_pos rfl, h]
  exact stripTagsLineGo_fuel_eq cs.length rest.length rest
    (le_of_lt (dropAfterGtLine_length h)) (le_refl _)

theorem stripTagsLine_lt_none {cs : List Char} (h : dropAfterGtLine cs = none) :
    stripTagsLine ('<' :: cs) = '<' :: stripTagsLine cs := by
  show stripTagsLineGo (cs.length + 1) ('<' :: cs) = _
  unfold stripTagsLineGo
  rw [if_pos rfl, h]
  rfl

theorem dropAfterGtLine_append_newline (u v : List Char) :
    dropAfterGtLine (u ++ '\n' :: v) =
      (dropAfterGtLine u).map (fun r => r ++ '\n' :: v) := by
  induction u with
  | nil => simp [dropAfterGtLine]
  | cons c cs ih =>
    by_cases hgt : c = '>'
    · subst hgt; simp [dropAfterGtLine]
    · by_cases hnl : c = '\n'
      · subst hnl; simp [dropAfterGtLine]
      · simp [dropAfterGtLine, hgt, hnl, ih]

theorem stripTagsLine_append_newline (X Y : List Char) :
    stripTagsLine (X ++ '\n' :: Y) = stripTagsLine X ++ '\n' :: stripTagsLine Y := by
  generalize hn : X.length = n
  induction n using Nat.strong_induction_on generalizing X with
  | _ n ih =>
    subst hn
    cases X with
    | nil =>
      simp only [List.nil_append]
      rw [stripTagsLine_cons_not_lt Y (by decide)]
      rfl
    | cons c cs =>
      by_cases hc : c = '<'
      · subst hc
        cases hd : dropAfterGtLine cs with
        | some rest =>
          have hd2 : dropAfterGtLine (cs ++ '\n' :: Y) = some (rest ++ '\n' :: Y) := by
            rw [dropAfterGtLine_append_newline, hd]; rfl
          rw [List.cons_append, stripTagsLine_lt_some hd2, stripTagsLine_lt_some hd]
          exact ih rest.length
            (by have := dropAfterGtLine_length hd; simp only [List.length_cons]; omega)
            rest rfl
        | none =>
          have hd2 : dropAfterGtLine (cs ++ '\n' :: Y) = none := by
            rw [dropAfterGtLine_append_newline, hd]; rfl
          rw [List.cons_append, stripTagsLine_lt_none hd2, stripTagsLine_lt_none hd]
          rw [ih cs.length (by simp) cs rfl]
          simp
      · rw [List.cons_append, stripTagsLine_cons_not_lt _ hc,
          stripTagsLine_cons_not_lt _ hc]
        rw [ih cs.length (by simp) cs rfl]
        simp

theorem stripTagsLine_eq_self {s : List Char} (h : ∀ c ∈ s, ¬c = '<') :
    stripTagsLine s = s := by
  induction s with
  | nil => rfl
  | cons c cs ih =>
    rw [stripTagsLine_cons_not_lt _ (h c (List.mem_cons_self c cs)),
      ih (fun x hx => h x (List.mem_cons_of_mem c hx))]

theorem stripTagsLine_h2open_append (X : List Char) :
    stripTagsLine (h2open ++ X) = stripTagsLine X := by
  have hd : dropAfterGtLine ('h' :: '2' :: '>' :: X) = some X := by
    simp [dropAfterGtLine]
  exact stripTagsLine_lt_some hd

/-- The title of the appended closing header contains both the keyword
and the marker word, for any junk `A` preceding them. -/
theorem sectionTitle_occurs {A k : List Char} (hk : pyStrip k = k) :
    occursB k (pyStrip (A ++ (k ++ "に関するまとめ".data))) = true
    ∧ occursB matome (pyStrip (A ++ (k ++ "に関するまとめ".data))) = true := by
  have hra : A ++ (k ++ "に関するまとめ".data) = (A ++ k) ++ "に関するまとめ".data := by
    simp [List.append_assoc]
  have hrw : pyRstrip "に関するまとめ".data = "に関するまとめ".data := by decide
  have hr : pyRstrip (A ++ (k ++ "に関するまとめ".data))
      = A ++ (k ++ "に関するまとめ".data) := by
    rw [hra, pyRstrip_append, hrw, if_neg (by decide)]
  unfold pyStrip
  rw [hr]
  rcases pyLstrip_append_cases A (k ++ "に関するまとめ".data) with hcase | ⟨d, hcase⟩
  · rw [hcase]
    by_cases hknil : k = []
    · subst hknil
      simp only [List.nil_append]
      rw [show pyLstrip "に関するまとめ".data = "に関するまとめ".data from by decide]
      exact ⟨occursB_nil _, by decide⟩
    · have hlk : pyLstrip (k ++ "に関するまとめ".data) = k ++ "に関するまとめ".data := by
        have hl := pyLstrip_eq_self_of_strip hk
        unfold pyLstrip at hl ⊢
        rw [List.dropWhile_append, hl, if_neg (by simpa using hknil)]
      rw [hlk]
      exact ⟨occursB_self_append k _, occursB_append_right k (by decide)⟩
  · rw [hcase]
    exact ⟨occursB_append_right d (occursB_self_append k _),
      occursB_append_right d (occursB_append_right k (by decide))⟩

/-! ## Whitespace suffixes do not change the match count -/

theorem renderSegs_assoc (segs : List H2Seg) (t W : List Char) :
    renderSegs segs t ++ W = renderSegs segs (t ++ W) := by
  induction segs with
  | nil => rfl
  | cons g gs ih =>
    show renderSeg g (renderSegs gs t) ++ W = renderSeg g (renderSegs gs (t ++ W))
    rw [← ih]
    simp [renderSeg, List.append_assoc]

theorem ciEqChar_false_of_space {p c : Char} (hc : isPySpace c = true)
    (hp : isPySpace p = false) (hup : ¬(65 ≤ p.toNat ∧ p.toNat ≤ 90)) :
    ciEqChar p c = false := by
  have hcn : c.toNat = 32 ∨ (9 ≤ c.toNat ∧ c.toNat ≤ 13) := by
    unfold isPySpace at hc
    simp only [Bool.or_eq_true, decide_eq_true_eq, Bool.and_eq_true] at hc
    rcases hc with hc | hc
    · subst hc; left; rfl
    · right; omega
  have hpn : ¬(p.toNat = 32 ∨ (9 ≤ p.toNat ∧ p.toNat ≤ 13)) := by
    unfold isPySpace at hp
    simp only [Bool.or_eq_false_iff, decide_eq_false_iff_not, Bool.and_eq_false_iff] at hp
    intro hcontra
    rcases hcontra with h32 | h913
    · exact hp.1 (charToNat_inj (by rw [h32]; rfl))
    · rcases hp.2 with h | h <;> omega
  unfold ciEqChar lowerN
  by_contra hx
  rw [Bool.not_eq_false, beq_iff_eq] at hx
  rw [if_neg hup] at hx
  by_cases hcu : 65 ≤ c.toNat ∧ c.toNat ≤ 90
  · omega
  · rw [if_neg hcu] at hx
    exact hpn (by omega)

/-- If a non-whitespace, non-uppercase pattern matches at some position
of `t ++ W` with `W` pure whitespace, the whole match lies inside `t`. -/
theorem prefix_within_of_ws_append {pat t W : List Char} {i : Nat}
    (hpat : ∀ c ∈ pat, isPySpace c = false ∧ ¬(65 ≤ c.toNat ∧ c.toNat ≤ 90))
    (hne : pat ≠ [])
    (hW : ∀ c ∈ W, isPySpace c = true)
    (h : ciIsPrefixOf pat ((t ++ W).drop i) = true) :
    ciIsPrefixOf pat (t.drop i) = true := by
  by_cases hi : i ≤ t.length
  · rw [List.drop_append_of_le_length hi] at h
    by_cases hlen : pat.length ≤ (t.drop i).length
    · have h2 := ciIsPrefixOf_take h
      rwa [List.take_of_length_le hlen] at h2
    · push_neg at hlen
      exfalso
      cases hw : W with
      | nil =>
        rw [hw, List.append_nil] at h
        have := ciIsPrefixOf_length_le h
        omega
      | cons wh wt =>
        rw [hw] at h
        have hget := ciIsPrefixOf_get_of_append hlen h
        have hmem : pat.get ⟨(t.drop i).length, hlen⟩ ∈ pat := List.get_mem pat _ hlen
        have hcond := hpat _ hmem
        have hwsh : isPySpace wh = true := hW wh (hw ▸ List.mem_cons_self wh wt)
        rw [ciEqChar_false_of_space hwsh hcond.1 hcond.2] at hget
        simp at hget
  · exfalso
    push_neg at hi
    have hdrop : (t ++ W).drop i = W.drop (i - t.length) := by
      have harith : i = t.length + (i - t.length) := by omega
      conv_lhs => rw [harith]
      rw [List.drop_append]
    rw [hdrop] at h
    cases pat with
    | nil => exact hne rfl
    | cons p ps =>
      cases hd : W.drop (i - t.length) with
      | nil => rw [hd] at h; simp [ciIsPrefixOf] at h
      | cons c rest =>
        rw [hd] at h
        simp only [ciIsPrefixOf, Bool.and_eq_true] at h
        have hcmem : c ∈ W := List.mem_of_mem_drop (hd ▸ List.mem_cons_self c rest)
        have hcond := hpat p (List.mem_cons_self p ps)
        rw [ciEqChar_false_of_space (hW c hcmem) hcond.1 hcond.2] at h
        simp at h

theorem h2Match_isSome_of_occ {t : List Char} {n m : Nat}
    (hnm : n + 4 ≤ m)
    (ho : ciIsPrefixOf h2open (t.drop n) = true)
    (hc : ciIsPrefixOf h2close (t.drop m) = true) :
    (h2Match t).isSome := by
  unfold h2Match
  cases h1 : firstOccCi h2open t with
  | none => rw [firstOccCi_none h1 n] at ho; simp at ho
  | some pr =>
    obtain ⟨pre, r1⟩ := pr
    dsimp only
    obtain ⟨he, hp⟩ := firstOccCi_decomp h1
    have hple : pre.length ≤ n := by
      by_contra hgt
      push_neg at hgt
      have hmin := firstOccCi_min h1 n hgt
      have hdrop : t.drop n = pre.drop n ++ r1 := by
        rw [he, List.drop_append_of_le_length (by omega)]
      rw [hdrop, hmin] at ho
      simp at ho
    have hocc : ciIsPrefixOf h2close ((r1.drop 4).drop (m - (pre.length + 4))) = true := by
      rw [List.drop_drop]
      have hr1 : r1.drop (4 + (m - (pre.length + 4))) = t.drop m := by
        rw [he]
        have harith : m = pre.length + (4 + (m - (pre.length + 4))) := by omega
        conv_rhs => rw [harith]
        rw [List.drop_append]
      rw [hr1]
      exact hc
    cases h2 : firstOccCi h2close (r1.drop 4) with
    | none => rw [firstOccCi_none h2 _] at hocc; simp at hocc
    | some pr2 =>
      obtain ⟨a, b⟩ := pr2
      dsimp only
      rfl

theorem h2Match_append_ws_none {tail W : List Char} (ht : h2Match tail = none)
    (hW : ∀ c ∈ W, isPySpace c = true) :
    h2Match (tail ++ W) = none := by
  cases hm : h2Match (tail ++ W) with
  | none => rfl
  | some pr =>
    exfalso
    obtain ⟨g, rest⟩ := pr
    obtain ⟨he, hg⟩ := h2Match_decomp hm
    have ho : ciIsPrefixOf h2open ((tail ++ W).drop g.pre.length) = true := by
      rw [he]
      unfold renderSeg
      rw [List.drop_left]
      exact ciIsPrefixOf_append_right _ hg.opre
    have hc : ciIsPrefixOf h2close
        ((tail ++ W).drop (g.pre.length + (4 + g.inner.length))) = true := by
      rw [he]
      unfold renderSeg
      rw [List.drop_append]
      rw [show (4 : Nat) + g.inner.length = g.otag.length + g.inner.length by
        rw [hg.olen]]
      rw [show g.otag ++ (g.inner ++ (g.ctag ++ rest)) =
        (g.otag ++ g.inner) ++ (g.ctag ++ rest) by simp [List.append_assoc]]
      rw [show g.otag.length + g.inner.length = (g.otag ++ g.inner).length by simp]
      rw [List.drop_left]
      exact ciIsPrefixOf_append_right _ hg.cpre
    have hwithin1 := prefix_within_of_ws_append (by decide) (by decide) hW ho
    have hwithin2 := prefix_within_of_ws_append (by decide) (by decide) hW hc
    have := h2Match_isSome_of_occ (by omega) hwithin1 hwithin2
    rw [ht] at this
    simp at this

theorem count_h2_pyRstrip (s : List Char) :
    count_h2 (pyRstrip s) = count_h2 s := by
  obtain ⟨w, hw, hws⟩ := exists_pyRstrip_decomp s
  obtain ⟨h1, h2, h3⟩ := h2Segs_spec (pyRstrip s)
  conv_rhs => rw [hw, ← h1]
  rw [renderSegs_assoc, count_h2_renderSegs _ h2,
    count_h2_of_match_none (h2Match_append_ws_none h3 hws)]
  conv_lhs => rw [← h1]
  rw [count_h2_renderSegs _ h2, count_h2_of_match_none h3]

/-! ## The appended closing header is the last match -/

theorem firstOccCi_close_k {k : List Char} (hk : ∀ c ∈ k, ¬c = '<') :
    firstOccCi h2close (k ++ "に関するまとめ</h2>\n".data)
      = some (k ++ "に関するまとめ".data, "</h2>\n".data) := by
  have happ := @firstOccCi_append h2close k "に関するまとめ</h2>\n".data
    (noPrefixAt_of_head (by decide) (by decide) hk _)
  rw [happ, show firstOccCi h2close "に関するまとめ</h2>\n".data
      = some ("に関するまとめ".data, "</h2>\n".data) from by decide]
  rfl

theorem prefix_close_nl_false (Z : List Char) :
    ciIsPrefixOf h2close ('\n' :: Z) = false := by
  rw [show h2close = '<' :: '/' :: 'h' :: '2' :: '>' :: [] from rfl]
  simp [ciIsPrefixOf, show ciEqChar '<' '\n' = false from by decide]

theorem prefix_open_nl_false (Z : List Char) :
    ciIsPrefixOf h2open ('\n' :: Z) = false := by
  rw [show h2open = '<' :: 'h' :: '2' :: '>' :: [] from rfl]
  simp [ciIsPrefixOf, show ciEqChar '<' '\n' = false from by decide]

theorem firstOccCi_close_suffix {k : List Char} (hk : ∀ c ∈ k, ¬c = '<') :
    firstOccCi h2close ('\n' :: (h2open ++ (k ++ "に関するまとめ</h2>\n".data)))
      = some ('\n' :: (h2open ++ (k ++ "に関するまとめ".data)), "</h2>\n".data) := by
  rw [firstOccCi_cons_neg (prefix_close_nl_false _)]
  have hH : ∀ n, n < h2open.length →
      ciIsPrefixOf h2close (h2open.drop n ++ (k ++ "に関するまとめ</h2>\n".data))
        = false := by
    intro n hn
    rw [show h2open.length = 4 from rfl] at hn
    interval_cases n <;>
      simp [h2open, h2close, ciIsPrefixOf,
        show ciEqChar '/' 'h' = false from by decide,
        show ciEqChar '<' 'h' = false from by decide,
        show ciEqChar '<' '2' = false from by decide,
        show ciEqChar '<' '>' = false from by decide]
  rw [@firstOccCi_append h2close h2open (k ++ "に関するまとめ</h2>\n".data) hH]
  rw [firstOccCi_close_k hk]
  rfl

theorem firstOccCi_open_at (X : List Char) :
    firstOccCi h2open ('\n' :: (h2open ++ X)) = some (['\n'], h2open ++ X) := by
  rw [firstOccCi_cons_neg (prefix_open_nl_false _)]
  rw [show h2open ++ X = '<' :: ('h' :: '2' :: '>' :: [] ++ X) from rfl]
  rw [firstOccCi_cons_pos (by
    rw [show '<' :: ('h' :: '2' :: '>' :: [] ++ X) = h2open ++ X from rfl]
    exact ciIsPrefixOf_self_append h2open X)]

/-- The core of claim C2: appending the canonical closing header to any
text with no full `H2_RE` match produces exactly one further match,
ending right before the final newline, and its title contains both the
keyword and the marker word. -/
theorem tail_summary_seg {tail k : List Char} (ht : h2Match tail = none)
    (hk : ∀ c ∈ k, ¬c = '<') (hks : pyStrip k = k) :
    ∃ g : H2Seg,
      h2Match (tail ++ summarySuffix k) = some (g, ['\n'])
      ∧ occursB k (sectionTitle g.inner) = true
      ∧ occursB matome (sectionTitle g.inner) = true := by
  have hsuf : summarySuffix k
      = '\n' :: (h2open ++ (k ++ "に関するまとめ</h2>\n".data)) := by
    show "\n<h2>".data ++ k ++ "に関するまとめ</h2>\n".data = _
    rw [show "\n<h2>".data = '\n' :: h2open from rfl]
    simp [List.append_assoc]
  have hkw : ∀ c ∈ k ++ "に関するまとめ".data, ¬c = '<' := by
    intro c hc
    rcases List.mem_append.mp hc with h | h
    · exact hk c h
    · intro hlt
      subst hlt
      revert h
      decide
  cases h1 : firstOccCi h2open tail with
  | none =>
    -- no `<h2>` occurrence in `tail`: the match is exactly the appended header
    refine ⟨⟨tail ++ ['\n'], h2open, k ++ "に関するまとめ".data, "</h2>".data⟩, ?_, ?_, ?_⟩
    · have hH : ∀ n, n < tail.length →
          ciIsPrefixOf h2open (tail.drop n ++ summarySuffix k) = false := by
        rw [hsuf]
        exact noPrefixAt_of_clean _ (firstOccCi_none h1) (by decide)
      unfold h2Match
      rw [@firstOccCi_append h2open tail (summarySuffix k) hH]
      rw [hsuf, firstOccCi_open_at (k ++ "に関するまとめ</h2>\n".data)]
      simp only [Option.map_some']
      rw [show (h2open ++ (k ++ "に関するまとめ</h2>\n".data)).drop 4
          = k ++ "に関するまとめ</h2>\n".data from by
        rw [show (4 : Nat) = h2open.length from rfl, List.drop_left]]
      rw [firstOccCi_close_k hk]
      dsimp only
      rw [show (h2open ++ (k ++ "に関するまとめ</h2>\n".data)).take 4 = h2open from by
        rw [show (4 : Nat) = h2open.length from rfl, List.take_left]]
      rw [show ("</h2>\n".data).take 5 = "</h2>".data from by decide]
      rw [show ("</h2>\n".data).drop 5 = ['\n'] from by decide]
    · have hst : stripTagsLine (k ++ "に関するまとめ".data)
          = [] ++ (k ++ "に関するまとめ".data) := by
        rw [stripTagsLine_eq_self hkw]
        simp
      show occursB k (pyStrip (stripTagsLine (k ++ "に関するまとめ".data))) = true
      rw [hst]
      exact (@sectionTitle_occurs [] _ hks).1
    · have hst : stripTagsLine (k ++ "に関するまとめ".data)
          = [] ++ (k ++ "に関するまとめ".data) := by
        rw [stripTagsLine_eq_self hkw]
        simp
      show occursB matome (pyStrip (stripTagsLine (k ++ "に関するまとめ".data))) = true
      rw [hst]
      exact (@sectionTitle_occurs [] _ hks).2
  | some pr =>
    obtain ⟨p0, r0⟩ := pr
    obtain ⟨he0, hp0⟩ := firstOccCi_decomp h1
    have h2cl : firstOccCi h2close (r0.drop 4) = none := by
      unfold h2Match at ht
      rw [h1] at ht
      dsimp only at ht
      cases h2 : firstOccCi h2close (r0.drop 4) with
      | none => rfl
      | some pr2 =>
        obtain ⟨a, b⟩ := pr2
        rw [h2] at ht
        simp at ht
    obtain ⟨r0t, hr0⟩ : ∃ t, r0 = '<' :: t := by
      cases hr : r0 with
      | nil => rw [hr] at hp0; simp [h2open, ciIsPrefixOf] at hp0
      | cons c t =>
        rw [hr] at hp0
        rw [show h2open = '<' :: 'h' :: '2' :: '>' :: [] from rfl] at hp0
        simp only [ciIsPrefixOf, Bool.and_eq_true] at hp0
        exact ⟨t, by rw [eq_of_ciEqChar_left (by decide) hp0.1]⟩
    have hr0len : 4 ≤ r0.length := by
      have := ciIsPrefixOf_length_le hp0
      simpa [h2open] using this
    refine ⟨⟨p0, r0.take 4,
      r0.drop 4 ++ ('\n' :: (h2open ++ (k ++ "に関するまとめ".data))), "</h2>".data⟩,
      ?_, ?_, ?_⟩
    · have hH : ∀ n, n < p0.length →
          ciIsPrefixOf h2open (p0.drop n ++ (r0 ++ summarySuffix k)) = false := by
        rw [hr0, List.cons_append]
        exact noPrefixAt_of_clean _
          (cleanOf_min (by decide) (firstOccCi_min h1)) (by decide)
      have hassoc : tail ++ summarySuffix k = p0 ++ (r0 ++ summarySuffix k) := by
        rw [he0, List.append_assoc]
      unfold h2Match
      rw [hassoc, @firstOccCi_append h2open p0 (r0 ++ summarySuffix k) hH]
      rw [show r0 ++ summarySuffix k = '<' :: (r0t ++ summarySuffix k) from by
        rw [hr0, List.cons_append]]
      rw [firstOccCi_cons_pos (by
        rw [show '<' :: (r0t ++ summarySuffix k) = r0 ++ summarySuffix k from by
          rw [hr0, List.cons_append]]
        exact ciIsPrefixOf_append_right _ hp0)]
      simp only [Option.map_some']
      rw [show ('<' :: (r0t ++ summarySuffix k)).drop 4
          = r0.drop 4 ++ summarySuffix k from by
        rw [show '<' :: (r0t ++ summarySuffix k) = r0 ++ summarySuffix k from by
          rw [hr0, List.cons_append]]
        rw [List.drop_append_of_le_length hr0len]]
      rw [show ('<' :: (r0t ++ summarySuffix k)).take 4 = r0.take 4 from by
        rw [show '<' :: (r0t ++ summarySuffix k) = r0 ++ summarySuffix k from by
          rw [hr0, List.cons_append]]
        rw [List.take_append_of_le_length hr0len]]
      have hHc : ∀ n, n < (r0.drop 4).length →
          ciIsPrefixOf h2close ((r0.drop 4).drop n ++ summarySuffix k) = false := by
        rw [hsuf]
        exact noPrefixAt_of_clean _ (firstOccCi_none h2cl) (by decide)
      rw [@firstOccCi_append h2close (r0.drop 4) (summarySuffix k) hHc]
      rw [hsuf, firstOccCi_close_suffix hk]
      simp only [Option.map_some', List.append_nil]
      rw [show ("</h2>\n".data).take 5 = "</h2>".data from by decide]
      rw [show ("</h2>\n".data).drop 5 = ['\n'] from by decide]
    · show occursB k (sectionTitle
        (r0.drop 4 ++ ('\n' :: (h2open ++ (k ++ "に関するまとめ".data))))) = true
      unfold sectionTitle
      rw [stripTagsLine_append_newline, stripTagsLine_h2open_append,
        stripTagsLine_eq_self hkw]
      rw [show stripTagsLine (r0.drop 4) ++ ('\n' :: (k ++ "に関するまとめ".data))
          = (stripTagsLine (r0.drop 4) ++ ['\n']) ++ (k ++ "に関するまとめ".data) from by
        simp [List.append_assoc]]
      exact (sectionTitle_occurs hks).1
    · show occursB matome (sectionTitle
        (r0.drop 4 ++ ('\n' :: (h2open ++ (k ++ "に関するまとめ".data))))) = true
      unfold sectionTitle
      rw [stripTagsLine_append_newline, stripTagsLine_h2open_append,
        stripTagsLine_eq_self hkw]
      rw [show stripTagsLine (r0.drop 4) ++ ('\n' :: (k ++ "に関するまとめ".data))
          = (stripTagsLine (r0.drop 4) ++ ['\n']) ++ (k ++ "に関するまとめ".data) from by
        simp [List.append_assoc]]
      exact (sectionTitle_occurs hks).2

/-! ## Claim C2 -/

theorem h2Segs_renderSegs {segs : List H2Seg} (y : List Char)
    (hs : ∀ g ∈ segs, SegGood g) :
    h2Segs (renderSegs segs y) = (segs ++ (h2Segs y).1, (h2Segs y).2) := by
  induction segs with
  | nil => simp [renderSegs]
  | cons g gs ih =>
    show h2Segs (renderSeg g (renderSegs gs y)) = _
    rw [h2Segs_unfold, h2Match_rebuild (hs g (List.mem_cons_self g gs))]
    dsimp only
    rw [ih (fun g2 hg2 => hs g2 (List.mem_cons_of_mem g hg2))]
    rfl

/-- The title of the last level-2 section of a document (the claim's
"the last level-2 section's title"), computed from the `H2_RE` match
list and the line-188 title extraction. -/
def lastH2Title (s : List Char) : Option (List Char) :=
  ((h2Segs s).1.map (fun g => sectionTitle g.inner)).getLast?

/-- C2 (counterexample): the claim's own scenario yields 3 sections,
not 4 — an input with 3 level-2 sections of which one is titled
`まとめ` has 2 non-summary sections, and 2 (≤ the content budget 3)
plus the appended summary gives 3.  Moreover the universal count
formula fails for keywords containing markup: with
`k = "x</h2><h2>y"` the enforcer output contains two `<h2>…</h2>`
matches while the formula predicts 1. -/
theorem claim_C2_counterexample :
    count_h2 (enforce_summary_last
        "<h2>A</h2><p>a</p><h2>まとめ</h2><p>s</p><h2>B</h2><p>b</p>".data
        "キーワード".data 4) = 3
    ∧ count_h2 (enforce_summary_last [] "x</h2><h2>y".data 2) = 2
    ∧ min (count_h2 (strip_existing_summary_h2 [])) (2 - 1) + 1 = 1 := by
  decide

/-- C2 (amended): for every document `h`, total `n ≥ 0` and keyword `k`
containing no `'<'` and equal to its own whitespace-strip, the output
of `enforce_summary_last` has exactly
`min (count_h2 (strip_existing_summary_h2 h)) (n - 1) + 1` level-2
sections as counted by `count_h2`, and the title of its last level-2
section contains both the keyword and the marker word `まとめ`.  (In
the claim's scenario — 3 sections, one titled `まとめ`, total 4 — this
gives `min 2 3 + 1 = 3` sections, not the 4 the claim states, with last
title `キーワードに関するまとめ`.) -/
theorem claim_C2_amended (h k : List Char) (n : Nat)
    (hk : ∀ c ∈ k, ¬c = '<') (hks : pyStrip k = k) :
    count_h2 (enforce_summary_last h k n)
      = min (count_h2 (strip_existing_summary_h2 h)) (n - 1) + 1
    ∧ ∃ t, lastH2Title (enforce_summary_last h k n) = some t
        ∧ occursB k t = true ∧ occursB matome t = true := by
  have henf : enforce_summary_last h k n =
      pyRstrip (if count_h2 (strip_existing_summary_h2 h) > n - 1
        then trim_h2_max (strip_existing_summary_h2 h) (n - 1)
        else strip_existing_summary_h2 h) ++ summarySuffix k := rfl
  set s1 := strip_existing_summary_h2 h with hs1
  set s2 := (if count_h2 s1 > n - 1 then trim_h2_max s1 (n - 1) else s1) with hs2
  have hc2 : count_h2 s2 = min (count_h2 s1) (n - 1) := by
    rw [hs2]
    split
    · rw [count_h2_trim_h2_max]
    · rename_i hle
      push_neg at hle
      omega
  set x := pyRstrip s2 with hx
  have hcx : count_h2 x = count_h2 s2 := count_h2_pyRstrip s2
  obtain ⟨hx1, hx2, hx3⟩ := h2Segs_spec x
  obtain ⟨g, hg, hgt1, hgt2⟩ := tail_summary_seg hx3 hk hks
  have hout : enforce_summary_last h k n
      = renderSegs (h2Segs x).1 ((h2Segs x).2 ++ summarySuffix k) := by
    rw [henf]
    conv_lhs => rw [← hx1]
    rw [renderSegs_assoc]
  have hseg_len : (h2Segs x).1.length = count_h2 x :=
    (count_h2_eq_segs_length x).symm
  constructor
  · rw [hout, count_h2_renderSegs _ hx2]
    rw [count_h2_unfold ((h2Segs x).2 ++ summarySuffix k), hg]
    dsimp only
    rw [show count_h2 ['\n'] = 0 from by decide, hseg_len, hcx, hc2]
  · refine ⟨sectionTitle g.inner, ?_, hgt1, hgt2⟩
    unfold lastH2Title
    rw [hout, h2Segs_renderSegs _ hx2]
    rw [h2Segs_unfold ((h2Segs x).2 ++ summarySuffix k), hg]
    dsimp only
    rw [show h2Segs ['\n'] = ([], ['\n']) from by decide]
    dsimp only
    rw [List.map_append]
    simp

/-- C2 (witness): the amended statement applied to the claim's scenario
document with keyword `キーワード` and total 4. -/
theorem claim_C2_amended_witness :
    (∀ c ∈ "キーワード".data, ¬c = '<')
    ∧ pyStrip "キーワード".data = "キーワード".data
    ∧ (count_h2 (enforce_summary_last
          "<h2>A</h2><p>a</p><h2>まとめ</h2><p>s</p><h2>B</h2><p>b</p>".data
          "キーワード".data 4)
        = min (count_h2 (strip_existing_summary_h2
            "<h2>A</h2><p>a</p><h2>まとめ</h2><p>s</p><h2>B</h2><p>b</p>".data))
            (4 - 1) + 1
      ∧ ∃ t, lastH2Title (enforce_summary_last
            "<h2>A</h2><p>a</p><h2>まとめ</h2><p>s</p><h2>B</h2><p>b</p>".data
            "キーワード".data 4) = some t
          ∧ occursB "キーワード".data t = true ∧ occursB matome t = true) :=
  ⟨by decide, by decide,
    claim_C2_amended
      "<h2>A</h2><p>a</p><h2>まとめ</h2><p>s</p><h2>B</h2><p>b</p>".data
      "キーワード".data 4 (by decide) (by decide)⟩

/-! ## A token model of well-formed markup (claims C5 and C6)

`simplify_html` operates on raw strings.  To state the whitelist
contract we model a well-formed document as a list of tokens — text
characters and attribute-free tags — rendered by concatenation. -/

/-- A markup token: one text character, or one tag (`slash = true` for
a closing tag `</name>`, `false` for an opening tag `<name>`). -/
inductive HTok : Type
  | txt (c : Char)
  | tag (slash : Bool) (name : List Char)

/-- Render one token. -/
def renderTok : HTok → List Char
  | .txt c => [c]
  | .tag true name => '<' :: '/' :: (name ++ ['>'])
  | .tag false name => '<' :: (name ++ ['>'])

/-- Render a document. -/
def renderToks (ts : List HTok) : List Char := (ts.map renderTok).flatten

/-- A well-formed token: a text character is not `'<'`, and a tag name
is a non-empty run of word characters. -/
def goodTok : HTok → Bool
  | .txt c => !(c == '<')
  | .tag _ name => !name.isEmpty && name.all isWordChar

/-- A well-formed document: every token is well-formed. -/
def goodToks (ts : List HTok) : Bool := ts.all goodTok

/-- The tag names of a document, in order of appearance. -/
def tokNames : List HTok → List (List Char)
  | [] => []
  | .txt _ :: ts => tokNames ts
  | .tag _ n :: ts => n :: tokNames ts

/-- Whether the substitution `re.sub(rf'</?{t}[^>]*>', '', ·)` erases a
token: it hits every tag whose name it ci-prefixes, the `[^>]*` part
absorbing the rest of the name. -/
def tagHit (t : List Char) : HTok → Bool
  | .txt _ => false
  | .tag _ n => ciIsPrefixOf t n

/-- Whether a token survives the chain of substitutions for the listed
tag names (each name off the whitelist erasing the tokens it hits). -/
def keepTok (tags : List (List Char)) (tok : HTok) : Bool :=
  !(tags.any (fun t => !isAllowedTag t && tagHit t tok))

/-- The keep-set of the specification: every text character survives,
and a tag survives exactly when its name is on the whitelist. -/
def keepSpecTok : HTok → Bool
  | .txt _ => true
  | .tag _ n => isAllowedTag n

/-- No tag name present in the document that is off the whitelist is a
case-insensitive prefix of an on-whitelist name also present. -/
def noMaskedNames (ts : List HTok) : Bool :=
  (tokNames ts).all (fun t => isAllowedTag t ||
    (tokNames ts).all (fun n => !isAllowedTag n || !ciIsPrefixOf t n))

/-! ### Word-character facts -/

theorem word_ne_lt {c : Char} (h : isWordChar c = true) : ¬ c = '<' := by
  intro he; subst he; exact absurd h (by decide)

theorem word_ne_slash {c : Char} (h : isWordChar c = true) : ¬ c = '/' := by
  intro he; subst he; exact absurd h (by decide)

theorem word_ne_gt {c : Char} (h : isWordChar c = true) : ¬ c = '>' := by
  intro he; subst he; exact absurd h (by decide)

theorem ciEqChar_gt_false {c : Char} (h : isWordChar c = true) :
    ciEqChar c '>' = false := by
  rw [Bool.eq_false_iff]
  intro hc
  rw [ciEqChar_eq_iff (by decide)] at hc
  exact word_ne_gt h hc

/-- A run of word characters stops a case-insensitive prefix test at
the closing `'>'`. -/
theorem ciIsPrefixOf_wordStop {t : List Char} (ht : t.all isWordChar = true) :
    ∀ (n s : List Char), ciIsPrefixOf t (n ++ '>' :: s) = ciIsPrefixOf t n := by
  induction t with
  | nil => intro n s; rfl
  | cons a as ih =>
    rw [List.all_cons, Bool.and_eq_true] at ht
    intro n s
    cases n with
    | nil =>
      show ciIsPrefixOf (a :: as) ('>' :: s) = ciIsPrefixOf (a :: as) []
      show (ciEqChar a '>' && ciIsPrefixOf as s) = false
      rw [ciEqChar_gt_false ht.1, Bool.false_and]
    | cons b bs =>
      show (ciEqChar a b && ciIsPrefixOf as (bs ++ '>' :: s))
        = (ciEqChar a b && ciIsPrefixOf as bs)
      rw [ih ht.2 bs s]

theorem ciEqChar_trans {a b c : Char} (h1 : ciEqChar a b = true)
    (h2 : ciEqChar b c = true) : ciEqChar a c = true := by
  simp only [ciEqChar, beq_iff_eq] at h1 h2 ⊢
  exact h1.trans h2

theorem ciIsPrefixOf_refl (p : List Char) : ciIsPrefixOf p p = true := by
  have := ciIsPrefixOf_self_append p []
  simpa using this

theorem ciIsPrefixOf_of_ciStrEq : ∀ {t n a : List Char},
    ciIsPrefixOf t n = true → ciStrEq n a = true → ciIsPrefixOf t a = true
  | [], _, _, _, _ => rfl
  | _ :: _, [], _, h1, _ => by simp [ciIsPrefixOf] at h1
  | _ :: _, _ :: _, [], _, h2 => by simp [ciStrEq] at h2
  | t0 :: ttl, n0 :: ntl, a0 :: atl, h1, h2 => by
    simp only [ciIsPrefixOf, ciStrEq, Bool.and_eq_true] at h1 h2 ⊢
    exact ⟨ciEqChar_trans h1.1 h2.1, ciIsPrefixOf_of_ciStrEq h1.2 h2.2⟩

/-- No whitelisted name starts (case-insensitively) with `br`. -/
theorem not_br_of_allowed {n : List Char} (h : isAllowedTag n = true) :
    ciIsPrefixOf "br".data n = false := by
  rw [Bool.eq_false_iff]
  intro hbr
  rw [isAllowedTag, List.any_eq_true] at h
  obtain ⟨a, ha, hci⟩ := h
  have hbra := ciIsPrefixOf_of_ciStrEq hbr hci
  simp only [ALLOWED_TAGS, List.mem_cons, List.not_mem_nil, or_false] at ha
  rcases ha with rfl | rfl | rfl | rfl | rfl | rfl | rfl | rfl | rfl | rfl | rfl | rfl <;>
    exact absurd hbra (by decide)

/-! ### `stripSlash` and `tagCapture` -/

theorem stripSlash_slash (cs : List Char) : stripSlash ('/' :: cs) = cs := rfl

theorem stripSlash_cons_ne {c : Char} (cs : List Char) (hc : ¬ c = '/') :
    stripSlash (c :: cs) = c :: cs := by
  unfold stripSlash
  split
  · rename_i heq
    injection heq with h1 h2
    exact absurd h1 hc
  · rfl

theorem stripSlash_length_le (cs : List Char) :
    (stripSlash cs).length ≤ cs.length := by
  cases cs with
  | nil => exact le_refl _
  | cons c cs2 =>
    by_cases hc : c = '/'
    · subst hc
      rw [stripSlash_slash]
      simp
    · rw [stripSlash_cons_ne cs2 hc]

theorem tagCapture_eq (cs : List Char) :
    tagCapture cs =
      (if ((stripSlash cs).takeWhile isWordChar).isEmpty then none
       else match dropAfterGt ((stripSlash cs).dropWhile isWordChar) with
         | some rest => some ((stripSlash cs).takeWhile isWordChar, rest)
         | none => none) := rfl

theorem tagCapture_length {cs n rest : List Char}
    (h : tagCapture cs = some (n, rest)) : rest.length ≤ cs.length := by
  rw [tagCapture_eq] at h
  split at h
  · simp at h
  · split at h
    · rename_i r hdrop
      injection h with h2
      have h3 := congrArg Prod.snd h2
      dsimp at h3
      subst h3
      have h4 : ((stripSlash cs).dropWhile isWordChar).length ≤ (stripSlash cs).length :=
        (List.dropWhile_sublist _).length_le
      have h5 := dropAfterGt_length hdrop
      have h6 := stripSlash_length_le cs
      omega
    · simp at h

theorem takeWhile_word_name {n : List Char} (hn : n.all isWordChar = true)
    (s : List Char) : (n ++ '>' :: s).takeWhile isWordChar = n := by
  induction n with
  | nil =>
    rw [List.nil_append, List.takeWhile_cons]
    simp [show isWordChar '>' = false from by decide]
  | cons c cs ih =>
    rw [List.all_cons, Bool.and_eq_true] at hn
    rw [List.cons_append, List.takeWhile_cons]
    simp only [hn.1, if_true]
    rw [ih hn.2]

theorem dropWhile_word_name {n : List Char} (hn : n.all isWordChar = true)
    (s : List Char) : (n ++ '>' :: s).dropWhile isWordChar = '>' :: s := by
  induction n with
  | nil =>
    rw [List.nil_append, List.dropWhile_cons]
    simp [show isWordChar '>' = false from by decide]
  | cons c cs ih =>
    rw [List.all_cons, Bool.and_eq_true] at hn
    rw [List.cons_append, List.dropWhile_cons]
    simp only [hn.1, if_true]
    exact ih hn.2

theorem dropAfterGt_word_append {l : List Char} (hl : l.all isWordChar = true)
    (s : List Char) : dropAfterGt (l ++ '>' :: s) = some s := by
  induction l with
  | nil => simp [dropAfterGt]
  | cons c cs ih =>
    rw [List.all_cons, Bool.and_eq_true] at hl
    rw [List.cons_append]
    unfold dropAfterGt
    rw [if_neg (word_ne_gt hl.1)]
    exact ih hl.2

theorem tagCapture_of_strip {cs n s : List Char}
    (hstrip : stripSlash cs = n ++ '>' :: s)
    (hne : n.isEmpty = false) (hw : n.all isWordChar = true) :
    tagCapture cs = some (n, s) := by
  rw [tagCapture_eq, hstrip, takeWhile_word_name hw, dropWhile_word_name hw]
  simp [hne, dropAfterGt]

theorem tagCapture_close {n : List Char} (hne : n.isEmpty = false)
    (hw : n.all isWordChar = true) (s : List Char) :
    tagCapture ('/' :: (n ++ '>' :: s)) = some (n, s) :=
  tagCapture_of_strip (stripSlash_slash _) hne hw

theorem tagCapture_open {n : List Char} (hne : n.isEmpty = false)
    (hw : n.all isWordChar = true) (s : List Char) :
    tagCapture (n ++ '>' :: s) = some (n, s) := by
  cases n with
  | nil => simp at hne
  | cons n0 ntl =>
    rw [List.all_cons, Bool.and_eq_true] at hw
    refine tagCapture_of_strip ?_ hne (by rw [List.all_cons, Bool.and_eq_true]; exact hw)
    rw [List.cons_append]
    exact stripSlash_cons_ne _ (word_ne_slash hw.1)

/-! ### Rendering shapes -/

theorem renderTok_close_append (n r : List Char) :
    renderTok (.tag true n) ++ r = '<' :: '/' :: (n ++ '>' :: r) := by
  simp [renderTok, List.append_assoc]

theorem renderTok_open_append (n r : List Char) :
    renderTok (.tag false n) ++ r = '<' :: (n ++ '>' :: r) := by
  simp [renderTok, List.append_assoc]

theorem renderToks_cons (tok : HTok) (ts : List HTok) :
    renderToks (tok :: ts) = renderTok tok ++ renderToks ts := by
  simp [renderToks]

/-! ### `findTags` on rendered documents -/

theorem findTagsGo_fuel_eq : ∀ (f1 f2 : Nat) (s : List Char),
    s.length ≤ f1 → s.length ≤ f2 → findTagsGo f1 s = findTagsGo f2 s := by
  intro f1
  induction f1 with
  | zero =>
    intro f2 s h1 _
    rw [length_le_zero_nil h1]
    cases f2 with
    | zero => rfl
    | succ m => rfl
  | succ f ih =>
    intro f2 s h1 h2
    cases f2 with
    | zero =>
      rw [length_le_zero_nil h2]
      rfl
    | succ m =>
      cases s with
      | nil => rfl
      | cons c cs =>
        show findTagsGo (f + 1) (c :: cs) = findTagsGo (m + 1) (c :: cs)
        unfold findTagsGo
        simp only [List.length_cons] at h1 h2
        by_cases hc : c = '<'
        · rw [if_pos hc, if_pos hc]
          cases hcap : tagCapture cs with
          | none => exact ih m cs (by omega) (by omega)
          | some pr =>
            obtain ⟨nm, rest⟩ := pr
            have hr := tagCapture_length hcap
            dsimp only
            rw [ih m rest (by omega) (by omega)]
        · rw [if_neg hc, if_neg hc]
          exact ih m cs (by omega) (by omega)

theorem findTags_cons_ne {c : Char} {s : List Char} (hc : ¬ c = '<') :
    findTags (c :: s) = findTags s := by
  show findTagsGo (s.length + 1) (c :: s) = findTags s
  unfold findTagsGo
  rw [if_neg hc]
  rfl

theorem findTags_tag_append {n : List Char} (hne : n.isEmpty = false)
    (hw : n.all isWordChar = true) (sl : Bool) (r : List Char) :
    findTags (renderTok (.tag sl n) ++ r) = n :: findTags r := by
  cases sl with
  | false =>
    rw [renderTok_open_append]
    show findTagsGo ((n ++ '>' :: r).length + 1) ('<' :: (n ++ '>' :: r))
      = n :: findTags r
    unfold findTagsGo
    rw [if_pos rfl, tagCapture_open hne hw r]
    dsimp only
    rw [findTagsGo_fuel_eq (n ++ '>' :: r).length r.length r (by simp; omega) (le_refl _)]
    rfl
  | true =>
    rw [renderTok_close_append]
    show findTagsGo (('/' :: (n ++ '>' :: r)).length + 1)
        ('<' :: '/' :: (n ++ '>' :: r)) = n :: findTags r
    unfold findTagsGo
    rw [if_pos rfl, tagCapture_close hne hw r]
    dsimp only
    rw [findTagsGo_fuel_eq ('/' :: (n ++ '>' :: r)).length r.length r (by simp; omega) (le_refl _)]
    rfl

theorem findTags_renderToks {ts : List HTok} (h : goodToks ts = true) :
    findTags (renderToks ts) = tokNames ts := by
  induction ts with
  | nil => rfl
  | cons tok ts ih =>
    rw [goodToks, List.all_cons, Bool.and_eq_true] at h
    have ih2 := ih h.2
    cases tok with
    | txt c =>
      have hc : ¬ c = '<' := by
        have h1 := h.1
        simp only [goodTok, Bool.not_eq_true', beq_eq_false_iff_ne, ne_eq] at h1
        exact h1
      rw [renderToks_cons]
      show findTags (c :: renderToks ts) = tokNames (.txt c :: ts)
      rw [findTags_cons_ne hc, ih2]
      rfl
    | tag sl n =>
      have h1 := h.1
      simp only [goodTok, Bool.and_eq_true] at h1
      have hne : n.isEmpty = false := by
        rw [Bool.not_eq_true'] at h1
        exact h1.1
      rw [renderToks_cons, findTags_tag_append hne h1.2 sl (renderToks ts), ih2]
      rfl

/-! ### `tokNames` and `firstDedup` membership -/

theorem name_mem_tokNames {sl : Bool} {n : List Char} {ts : List HTok}
    (h : HTok.tag sl n ∈ ts) : n ∈ tokNames ts := by
  induction ts with
  | nil => cases h
  | cons tok ts ih =>
    rcases List.mem_cons.mp h with heq | h2
    · rw [← heq]
      exact List.mem_cons_self n _
    · cases tok with
      | txt c => exact ih h2
      | tag sl2 n2 => exact List.mem_cons_of_mem _ (ih h2)

theorem tokNames_mem {ts : List HTok} {n : List Char} (h : n ∈ tokNames ts) :
    ∃ sl, HTok.tag sl n ∈ ts := by
  induction ts with
  | nil => cases h
  | cons tok ts ih =>
    cases tok with
    | txt c =>
      obtain ⟨sl, hsl⟩ := ih h
      exact ⟨sl, List.mem_cons_of_mem _ hsl⟩
    | tag sl2 n2 =>
      rcases List.mem_cons.mp h with heq | h2
      · subst heq
        exact ⟨sl2, List.mem_cons_self _ _⟩
      · obtain ⟨sl, hsl⟩ := ih h2
        exact ⟨sl, List.mem_cons_of_mem _ hsl⟩

theorem tokNames_word {ts : List HTok} (h : goodToks ts = true) :
    ∀ t ∈ tokNames ts, t.all isWordChar = true := by
  intro t ht
  obtain ⟨sl, hsl⟩ := tokNames_mem ht
  rw [goodToks, List.all_eq_true] at h
  have := h _ hsl
  simp only [goodTok, Bool.and_eq_true] at this
  exact this.2

theorem mem_firstDedupGo (seen : List (List Char)) {a : List Char}
    {l : List (List Char)} (h : a ∈ l) :
    a ∈ seen ∨ a ∈ firstDedupGo seen l := by
  induction l generalizing seen with
  | nil => cases h
  | cons b bs ih =>
    unfold firstDedupGo
    rcases List.mem_cons.mp h with heq | h2
    · subst heq
      by_cases hb : seen.contains a = true
      · left
        exact List.mem_of_elem_eq_true hb
      · right
        rw [if_neg hb]
        exact List.mem_cons_self _ _
    · by_cases hb : seen.contains b = true
      · rw [if_pos hb]
        exact ih seen h2
      · rw [if_neg hb]
        rcases ih (b :: seen) h2 with hs | hr
        · rcases List.mem_cons.mp hs with heq | hs2
          · subst heq
            right
            exact List.mem_cons_self _ _
          · left
            exact hs2
        · right
          exact List.mem_cons_of_mem _ hr

theorem mem_firstDedup {a : List Char} {l : List (List Char)} (h : a ∈ l) :
    a ∈ firstDedup l := by
  rcases mem_firstDedupGo [] h with hs | hr
  · cases hs
  · exact hr

theorem mem_of_mem_firstDedupGo (seen : List (List Char)) {a : List Char}
    {l : List (List Char)} (h : a ∈ firstDedupGo seen l) : a ∈ l := by
  induction l generalizing seen with
  | nil => cases h
  | cons b bs ih =>
    unfold firstDedupGo at h
    by_cases hb : seen.contains b = true
    · rw [if_pos hb] at h
      exact List.mem_cons_of_mem _ (ih seen h)
    · rw [if_neg hb] at h
      rcases List.mem_cons.mp h with heq | h2
      · subst heq
        exact List.mem_cons_self _ _
      · exact List.mem_cons_of_mem _ (ih (b :: seen) h2)

theorem mem_of_mem_firstDedup {a : List Char} {l : List (List Char)}
    (h : a ∈ firstDedup l) : a ∈ l :=
  mem_of_mem_firstDedupGo [] h

/-! ### `subTag` on rendered documents -/

theorem tagSubMatch_lt (t s1 : List Char) :
    tagSubMatch t ('<' :: s1) =
      (if ciIsPrefixOf t (stripSlash s1) = true then
        dropAfterGt ((stripSlash s1).drop t.length)
      else none) := rfl

theorem tagSubMatch_not_lt {t : List Char} {c : Char} {cs : List Char}
    (hc : ¬ c = '<') : tagSubMatch t (c :: cs) = none := by
  unfold tagSubMatch
  split
  · rename_i heq
    injection heq with h1 h2
    exact absurd h1 hc
  · rfl

theorem tagSubMatch_length {t s rest : List Char}
    (h : tagSubMatch t s = some rest) : rest.length < s.length := by
  cases s with
  | nil => simp [tagSubMatch] at h
  | cons c cs =>
    by_cases hc : c = '<'
    · subst hc
      rw [tagSubMatch_lt] at h
      split at h
      · have h5 := dropAfterGt_length h
        have h4 : ((stripSlash cs).drop t.length).length ≤ (stripSlash cs).length := by
          rw [List.length_drop]
          omega
        have h6 := stripSlash_length_le cs
        simp only [List.length_cons]
        omega
      · simp at h
    · rw [tagSubMatch_not_lt hc] at h
      simp at h

theorem subTagGo_fuel_eq (t : List Char) : ∀ (f1 f2 : Nat) (s : List Char),
    s.length ≤ f1 → s.length ≤ f2 → subTagGo t f1 s = subTagGo t f2 s := by
  intro f1
  induction f1 with
  | zero =>
    intro f2 s h1 _
    rw [length_le_zero_nil h1]
    cases f2 with
    | zero => rfl
    | succ m => rfl
  | succ f ih =>
    intro f2 s h1 h2
    cases f2 with
    | zero =>
      rw [length_le_zero_nil h2]
      rfl
    | succ m =>
      cases s with
      | nil => rfl
      | cons c cs =>
        show subTagGo t (f + 1) (c :: cs) = subTagGo t (m + 1) (c :: cs)
        unfold subTagGo
        simp only [List.length_cons] at h1 h2
        cases hm : tagSubMatch t (c :: cs) with
        | none =>
          dsimp only
          rw [ih m cs (by omega) (by omega)]
        | some rest =>
          have hr := tagSubMatch_length hm
          simp only [List.length_cons] at hr
          dsimp only
          rw [ih m rest (by omega) (by omega)]

theorem subTag_cons_ne {t : List Char} {c : Char} {s : List Char}
    (hc : ¬ c = '<') : subTag t (c :: s) = c :: subTag t s := by
  show subTagGo t (s.length + 1) (c :: s) = c :: subTag t s
  unfold subTagGo
  rw [tagSubMatch_not_lt hc]
  rfl

theorem subTag_noLt_append {t l : List Char} (hl : ∀ c ∈ l, ¬ c = '<')
    (s : List Char) : subTag t (l ++ s) = l ++ subTag t s := by
  induction l with
  | nil => rfl
  | cons c cs ih =>
    rw [List.cons_append, subTag_cons_ne (hl c (List.mem_cons_self _ _)),
      ih (fun c2 hc2 => hl c2 (List.mem_cons_of_mem _ hc2))]
    rfl

theorem stripSlash_name_append {n : List Char} (hne : n.isEmpty = false)
    (hw : n.all isWordChar = true) (r : List Char) :
    stripSlash (n ++ '>' :: r) = n ++ '>' :: r := by
  cases n with
  | nil => simp at hne
  | cons n0 ntl =>
    rw [List.all_cons, Bool.and_eq_true] at hw
    rw [List.cons_append]
    exact stripSlash_cons_ne _ (word_ne_slash hw.1)

theorem subTag_tag_hit {t n : List Char} (ht : t.all isWordChar = true)
    (hne : n.isEmpty = false) (hw : n.all isWordChar = true)
    (hhit : ciIsPrefixOf t n = true) (sl : Bool) (r : List Char) :
    subTag t (renderTok (.tag sl n) ++ r) = subTag t r := by
  have hlen : t.length ≤ n.length := ciIsPrefixOf_length_le hhit
  have hwd : (n.drop t.length).all isWordChar = true := by
    rw [List.all_eq_true] at hw ⊢
    intro c hcmem
    exact hw c (List.mem_of_mem_drop hcmem)
  have hdrop : dropAfterGt ((n ++ '>' :: r).drop t.length) = some r := by
    rw [List.drop_append_of_le_length hlen]
    exact dropAfterGt_word_append hwd r
  cases sl with
  | false =>
    rw [renderTok_open_append]
    show subTagGo t ((n ++ '>' :: r).length + 1) ('<' :: (n ++ '>' :: r)) = subTag t r
    unfold subTagGo
    rw [tagSubMatch_lt, stripSlash_name_append hne hw r,
      ciIsPrefixOf_wordStop ht n r, if_pos hhit, hdrop]
    dsimp only
    rw [subTagGo_fuel_eq t (n ++ '>' :: r).length r.length r (by simp; omega) (le_refl _)]
    rfl
  | true =>
    rw [renderTok_close_append]
    show subTagGo t (('/' :: (n ++ '>' :: r)).length + 1)
        ('<' :: '/' :: (n ++ '>' :: r)) = subTag t r
    unfold subTagGo
    rw [tagSubMatch_lt, stripSlash_slash,
      ciIsPrefixOf_wordStop ht n r, if_pos hhit, hdrop]
    dsimp only
    rw [subTagGo_fuel_eq t ('/' :: (n ++ '>' :: r)).length r.length r
      (by simp; omega) (le_refl _)]
    rfl

theorem subTag_tag_miss {t n : List Char} (ht : t.all isWordChar = true)
    (hne : n.isEmpty = false) (hw : n.all isWordChar = true)
    (hmiss : ciIsPrefixOf t n = false) (sl : Bool) (r : List Char) :
    subTag t (renderTok (.tag sl n) ++ r)
      = renderTok (.tag sl n) ++ subTag t r := by
  have hnolt : ∀ c ∈ n ++ ['>'], ¬ c = '<' := by
    intro c hc
    rcases List.mem_append.mp hc with hcn | hcg
    · rw [List.all_eq_true] at hw
      exact word_ne_lt (hw c hcn)
    · rw [List.mem_singleton] at hcg
      subst hcg
      decide
  have hshape : (n ++ ['>']) ++ r = n ++ '>' :: r := by
    rw [List.append_assoc]
    rfl
  cases sl with
  | false =>
    rw [renderTok_open_append]
    show subTagGo t ((n ++ '>' :: r).length + 1) ('<' :: (n ++ '>' :: r))
      = renderTok (.tag false n) ++ subTag t r
    unfold subTagGo
    rw [tagSubMatch_lt, stripSlash_name_append hne hw r,
      ciIsPrefixOf_wordStop ht n r, if_neg (by simp [hmiss])]
    dsimp only
    rw [show subTagGo t (n ++ '>' :: r).length (n ++ '>' :: r)
        = subTag t (n ++ '>' :: r) from rfl]
    rw [← hshape, subTag_noLt_append hnolt r, renderTok_open_append]
    rw [List.append_assoc]
    rfl
  | true =>
    rw [renderTok_close_append]
    show subTagGo t (('/' :: (n ++ '>' :: r)).length + 1)
        ('<' :: '/' :: (n ++ '>' :: r))
      = renderTok (.tag true n) ++ subTag t r
    unfold subTagGo
    rw [tagSubMatch_lt, stripSlash_slash,
      ciIsPrefixOf_wordStop ht n r, if_neg (by simp [hmiss])]
    dsimp only
    rw [show subTagGo t (('/' :: (n ++ '>' :: r)).length) ('/' :: (n ++ '>' :: r))
        = subTag t ('/' :: (n ++ '>' :: r)) from rfl]
    rw [subTag_cons_ne (by decide), ← hshape, subTag_noLt_append hnolt r,
      renderTok_close_append]
    rw [List.append_assoc]
    rfl

theorem goodToks_filter {ts : List HTok} (h : goodToks ts = true)
    (p : HTok → Bool) : goodToks (ts.filter p) = true := by
  rw [goodToks, List.all_eq_true] at h ⊢
  intro tok htok
  exact h tok (List.mem_of_mem_filter htok)

theorem subTag_renderToks {t : List Char} (ht : t.all isWordChar = true) :
    ∀ {ts : List HTok}, goodToks ts = true →
    subTag t (renderToks ts)
      = renderToks (ts.filter (fun tok => !tagHit t tok)) := by
  intro ts h
  induction ts with
  | nil => rfl
  | cons tok ts ih =>
    rw [goodToks, List.all_cons, Bool.and_eq_true] at h
    have ih2 := ih h.2
    cases tok with
    | txt c =>
      have hc : ¬ c = '<' := by
        have h1 := h.1
        simp only [goodTok, Bool.not_eq_true', beq_eq_false_iff_ne, ne_eq] at h1
        exact h1
      rw [renderToks_cons]
      show subTag t (c :: renderToks ts) = _
      rw [subTag_cons_ne hc, ih2]
      rw [List.filter_cons_of_pos (by rfl)]
      rw [renderToks_cons]
      rfl
    | tag sl n =>
      have h1 := h.1
      simp only [goodTok, Bool.and_eq_true] at h1
      have hne : n.isEmpty = false := by
        rw [Bool.not_eq_true'] at h1
        exact h1.1
      rw [renderToks_cons]
      by_cases hhit : ciIsPrefixOf t n = true
      · rw [subTag_tag_hit ht hne h1.2 hhit sl (renderToks ts), ih2]
        rw [List.filter_cons_of_neg (by simp [tagHit, hhit])]
      · have hmiss : ciIsPrefixOf t n = false := by
          rw [Bool.not_eq_true] at hhit
          exact hhit
        rw [subTag_tag_miss ht hne h1.2 hmiss sl (renderToks ts), ih2]
        rw [List.filter_cons_of_pos (by simp [tagHit, hmiss])]
        rw [renderToks_cons]

/-! ### `subBr` on rendered documents -/

/-- A token the `<br\s*/?>` substitution cannot touch: any text
character, any closing tag, and any opening tag whose name does not
start (case-insensitively) with `br`. -/
def brSafeTok : HTok → Bool
  | .txt _ => true
  | .tag sl n => sl || !(ciIsPrefixOf "br".data n)

theorem brMatch_lt (s1 : List Char) :
    brMatch ('<' :: s1) =
      (if ciIsPrefixOf "br".data s1 = true then
        match (s1.drop 2).dropWhile isPySpace with
        | '/' :: '>' :: rest => some rest
        | '>' :: rest => some rest
        | _ => none
      else none) := rfl

theorem brMatch_not_lt {c : Char} {cs : List Char} (hc : ¬ c = '<') :
    brMatch (c :: cs) = none := by
  unfold brMatch
  split
  · rename_i heq
    injection heq with h1 h2
    exact absurd h1 hc
  · rfl

theorem brMatch_length {s rest : List Char}
    (h : brMatch s = some rest) : rest.length < s.length := by
  cases s with
  | nil => simp [brMatch] at h
  | cons c cs =>
    by_cases hc : c = '<'
    · subst hc
      rw [brMatch_lt] at h
      split at h
      · have hd : ((cs.drop 2).dropWhile isPySpace).length ≤ cs.length := by
          have h1 : ((cs.drop 2).dropWhile isPySpace).length ≤ (cs.drop 2).length :=
            (List.dropWhile_sublist _).length_le
          rw [List.length_drop] at h1
          omega
        split at h
        · rename_i rest2 heq
          injection h with h2
          subst h2
          have := congrArg List.length heq
          simp only [List.length_cons] at this
          simp only [List.length_cons]
          omega
        · rename_i rest2 heq
          injection h with h2
          subst h2
          have := congrArg List.length heq
          simp only [List.length_cons] at this
          simp only [List.length_cons]
          omega
        · simp at h
      · simp at h
    · rw [brMatch_not_lt hc] at h
      simp at h

theorem subBrGo_fuel_eq : ∀ (f1 f2 : Nat) (s : List Char),
    s.length ≤ f1 → s.length ≤ f2 → subBrGo f1 s = subBrGo f2 s := by
  intro f1
  induction f1 with
  | zero =>
    intro f2 s h1 _
    rw [length_le_zero_nil h1]
    cases f2 with
    | zero => rfl
    | succ m => rfl
  | succ f ih =>
    intro f2 s h1 h2
    cases f2 with
    | zero =>
      rw [length_le_zero_nil h2]
      rfl
    | succ m =>
      cases s with
      | nil => rfl
      | cons c cs =>
        show subBrGo (f + 1) (c :: cs) = subBrGo (m + 1) (c :: cs)
        unfold subBrGo
        simp only [List.length_cons] at h1 h2
        cases hm : brMatch (c :: cs) with
        | none =>
          dsimp only
          rw [ih m cs (by omega) (by omega)]
        | some rest =>
          have hr := brMatch_length hm
          simp only [List.length_cons] at hr
          dsimp only
          rw [ih m rest (by omega) (by omega)]

theorem subBr_cons_ne {c : Char} {s : List Char} (hc : ¬ c = '<') :
    subBr (c :: s) = c :: subBr s := by
  show subBrGo (s.length + 1) (c :: s) = c :: subBr s
  unfold subBrGo
  rw [brMatch_not_lt hc]
  rfl

theorem subBr_noLt_append {l : List Char} (hl : ∀ c ∈ l, ¬ c = '<')
    (s : List Char) : subBr (l ++ s) = l ++ subBr s := by
  induction l with
  | nil => rfl
  | cons c cs ih =>
    rw [List.cons_append, subBr_cons_ne (hl c (List.mem_cons_self _ _)),
      ih (fun c2 hc2 => hl c2 (List.mem_cons_of_mem _ hc2))]
    rfl

theorem ciIsPrefixOf_br_slash (x : List Char) :
    ciIsPrefixOf ['b', 'r'] ('/' :: x) = false := by
  show (ciEqChar 'b' '/' && ciIsPrefixOf ['r'] x) = false
  rw [show ciEqChar 'b' '/' = false from by decide, Bool.false_and]

theorem nolt_name_gt {n : List Char} (hw : n.all isWordChar = true) :
    ∀ c ∈ n ++ ['>'], ¬ c = '<' := by
  intro c hc
  rcases List.mem_append.mp hc with hcn | hcg
  · rw [List.all_eq_true] at hw
    exact word_ne_lt (hw c hcn)
  · rw [List.mem_singleton] at hcg
    subst hcg
    decide

theorem name_gt_shape (n r : List Char) : (n ++ ['>']) ++ r = n ++ '>' :: r := by
  rw [List.append_assoc]
  rfl

theorem subBr_tag_close {n : List Char} (hw : n.all isWordChar = true)
    (r : List Char) :
    subBr (renderTok (.tag true n) ++ r) = renderTok (.tag true n) ++ subBr r := by
  rw [renderTok_close_append]
  show subBrGo (('/' :: (n ++ '>' :: r)).length + 1)
      ('<' :: '/' :: (n ++ '>' :: r)) = _
  unfold subBrGo
  rw [brMatch_lt, if_neg (by simp [ciIsPrefixOf_br_slash])]
  dsimp only
  rw [show subBrGo (('/' :: (n ++ '>' :: r)).length) ('/' :: (n ++ '>' :: r))
      = subBr ('/' :: (n ++ '>' :: r)) from rfl]
  rw [subBr_cons_ne (by decide), ← name_gt_shape,
    subBr_noLt_append (nolt_name_gt hw) r, renderTok_close_append]
  rw [List.append_assoc]
  rfl

theorem subBr_tag_open {n : List Char} (hw : n.all isWordChar = true)
    (hbr : ciIsPrefixOf "br".data n = false) (r : List Char) :
    subBr (renderTok (.tag false n) ++ r)
      = renderTok (.tag false n) ++ subBr r := by
  rw [renderTok_open_append]
  show subBrGo ((n ++ '>' :: r).length + 1) ('<' :: (n ++ '>' :: r)) = _
  unfold subBrGo
  rw [brMatch_lt,
    if_neg (by rw [ciIsPrefixOf_wordStop (by decide) n r, hbr]; simp)]
  dsimp only
  rw [show subBrGo ((n ++ '>' :: r).length) (n ++ '>' :: r)
      = subBr (n ++ '>' :: r) from rfl]
  rw [← name_gt_shape, subBr_noLt_append (nolt_name_gt hw) r,
    renderTok_open_append]
  rw [List.append_assoc]
  rfl

theorem subBr_renderToks : ∀ {ts : List HTok}, goodToks ts = true →
    (∀ tok ∈ ts, brSafeTok tok = true) → subBr (renderToks ts) = renderToks ts := by
  intro ts h hsafe
  induction ts with
  | nil => rfl
  | cons tok ts ih =>
    rw [goodToks, List.all_cons, Bool.and_eq_true] at h
    have ih2 := ih h.2 (fun t ht => hsafe t (List.mem_cons_of_mem _ ht))
    cases tok with
    | txt c =>
      have hc : ¬ c = '<' := by
        have h1 := h.1
        simp only [goodTok, Bool.not_eq_true', beq_eq_false_iff_ne, ne_eq] at h1
        exact h1
      rw [renderToks_cons]
      show subBr (c :: renderToks ts) = _
      rw [subBr_cons_ne hc, ih2]
      rfl
    | tag sl n =>
      have h1 := h.1
      simp only [goodTok, Bool.and_eq_true] at h1
      rw [renderToks_cons]
      cases sl with
      | true =>
        rw [subBr_tag_close h1.2 (renderToks ts), ih2]
      | false =>
        have hs := hsafe _ (List.mem_cons_self _ _)
        simp only [brSafeTok, Bool.false_or, Bool.not_eq_true'] at hs
        rw [subBr_tag_open h1.2 hs (renderToks ts), ih2]

/-! ### The substitution chain -/

theorem foldl_subTags : ∀ (tags : List (List Char)),
    (∀ t ∈ tags, t.all isWordChar = true) →
    ∀ {ts : List HTok}, goodToks ts = true →
    tags.foldl (fun acc t => if isAllowedTag t then acc else subTag t acc)
        (renderToks ts)
      = renderToks (ts.filter (keepTok tags)) := by
  intro tags
  induction tags with
  | nil =>
    intro _ ts h
    rw [List.foldl_nil,
      show ts.filter (keepTok []) = ts from List.filter_eq_self.mpr (fun a _ => rfl)]
  | cons t rest ih =>
    intro htags ts h
    rw [List.foldl_cons]
    by_cases hall : isAllowedTag t = true
    · rw [if_pos hall, ih (fun u hu => htags u (List.mem_cons_of_mem _ hu)) h]
      congr 1
      apply List.filter_congr
      intro tok _
      simp [keepTok, List.any_cons, hall]
    · rw [if_neg hall]
      have hall2 : isAllowedTag t = false := by
        rw [Bool.not_eq_true] at hall
        exact hall
      rw [subTag_renderToks (htags t (List.mem_cons_self _ _)) h,
        ih (fun u hu => htags u (List.mem_cons_of_mem _ hu)) (goodToks_filter h _),
        List.filter_filter]
      congr 1
      apply List.filter_congr
      intro tok _
      cases htag : tagHit t tok <;> simp [keepTok, List.any_cons, hall2, htag]

theorem simplify_html_eq (html : List Char) :
    simplify_html html =
      subBr ((firstDedup (findTags html)).foldl
        (fun acc t => if isAllowedTag t then acc else subTag t acc) html) := rfl

/-- Every token surviving the substitution chain satisfies the
specification keep-set: its tag name (if any) is whitelisted. -/
theorem keep_allowed {ts : List HTok} :
    ∀ tok ∈ ts.filter (keepTok (firstDedup (tokNames ts))),
      keepSpecTok tok = true := by
  intro tok htok
  rw [List.mem_filter] at htok
  obtain ⟨hmem, hkeep⟩ := htok
  cases tok with
  | txt c => rfl
  | tag sl n =>
    simp only [keepSpecTok]
    by_contra hna
    have hna2 : isAllowedTag n = false := by
      rw [Bool.not_eq_true] at hna
      exact hna
    have hnD : n ∈ firstDedup (tokNames ts) :=
      mem_firstDedup (name_mem_tokNames hmem)
    have hfalse : keepTok (firstDedup (tokNames ts)) (HTok.tag sl n) = false := by
      have hany : (firstDedup (tokNames ts)).any
          (fun t => !isAllowedTag t && tagHit t (HTok.tag sl n)) = true := by
        rw [List.any_eq_true]
        refine ⟨n, hnD, ?_⟩
        simp [hna2, tagHit, ciIsPrefixOf_refl]
      simp [keepTok, hany]
    rw [hfalse] at hkeep
    simp at hkeep

/-- The master characterization: on a well-formed document,
`simplify_html` keeps exactly the tokens no off-whitelist present tag
name hits. -/
theorem simplify_renderToks_eq {ts : List HTok} (h : goodToks ts = true) :
    simplify_html (renderToks ts)
      = renderToks (ts.filter (keepTok (firstDedup (tokNames ts)))) := by
  rw [simplify_html_eq, findTags_renderToks h]
  have htags : ∀ t ∈ firstDedup (tokNames ts), t.all isWordChar = true :=
    fun t ht => tokNames_word h t (mem_of_mem_firstDedup ht)
  rw [foldl_subTags (firstDedup (tokNames ts)) htags h]
  apply subBr_renderToks (goodToks_filter h _)
  intro tok htok
  have hkeep := keep_allowed tok htok
  cases tok with
  | txt c => rfl
  | tag sl n =>
    cases sl with
    | true => rfl
    | false =>
      simp only [keepSpecTok] at hkeep
      simp only [brSafeTok, Bool.false_or, Bool.not_eq_true']
      exact not_br_of_allowed hkeep

/-- Claim C5, counterexample: `simplify_html` does not preserve every
occurrence of a whitelisted tag.  In `<h><h2>x</h2>` the unknown tag
name `h` is removed by name-prefix matching (`</?h[^>]*>`), which also
erases the whitelisted `<h2>` and `</h2>`: the input contains `<h2>`,
the output `x` does not. -/
theorem claim_C5_counterexample :
    occursB "<h2>".data "<h><h2>x</h2>".data = true
    ∧ simplify_html "<h><h2>x</h2>".data = "x".data
    ∧ occursB "<h2>".data (simplify_html "<h><h2>x</h2>".data) = false := by
  decide

/-- Claim C5 (amended): on a well-formed document (text characters
other than `'<'` and attribute-free tags with non-empty word-character
names) in which no off-whitelist tag name present is a case-insensitive
prefix of a whitelisted name present, `simplify_html` keeps exactly the
text and the tags whose names are on the whitelist
{h2, h3, p, strong, em, ul, ol, li, table, tr, th, td} — matching on
the name only, case-insensitively, removing opening and closing forms
of every other tag (including every line-break tag, whose name `br` is
off the whitelist). -/
theorem claim_C5_amended (ts : List HTok) (h : goodToks ts = true)
    (hmask : noMaskedNames ts = true) :
    simplify_html (renderToks ts) = renderToks (ts.filter keepSpecTok) := by
  rw [simplify_renderToks_eq h]
  congr 1
  apply List.filter_congr
  intro tok hmem
  cases tok with
  | txt c =>
    show keepTok (firstDedup (tokNames ts)) (HTok.txt c) = keepSpecTok (HTok.txt c)
    simp [keepTok, keepSpecTok, tagHit]
  | tag sl n =>
    show keepTok (firstDedup (tokNames ts)) (HTok.tag sl n)
      = keepSpecTok (HTok.tag sl n)
    by_cases hall : isAllowedTag n = true
    · have hkeep : keepTok (firstDedup (tokNames ts)) (HTok.tag sl n) = true := by
        unfold keepTok
        rw [Bool.not_eq_true', List.any_eq_false]
        intro t htD
        have htNames : t ∈ tokNames ts := mem_of_mem_firstDedup htD
        by_cases hta : isAllowedTag t = true
        · simp [hta]
        · have hta2 : isAllowedTag t = false := by
            rw [Bool.not_eq_true] at hta
            exact hta
          rw [noMaskedNames, List.all_eq_true] at hmask
          have h1 := hmask t htNames
          rw [Bool.or_eq_true] at h1
          rcases h1 with h1 | h1
          · exact absurd h1 (by simp [hta2])
          · rw [List.all_eq_true] at h1
            have h2 := h1 n (name_mem_tokNames hmem)
            rw [Bool.or_eq_true] at h2
            rcases h2 with h2 | h2
            · exact absurd h2 (by simp [hall])
            · simp only [Bool.not_eq_true'] at h2
              simp [tagHit, h2]
      rw [hkeep]
      simp [keepSpecTok, hall]
    · have hall2 : isAllowedTag n = false := by
        rw [Bool.not_eq_true] at hall
        exact hall
      have hnD : n ∈ firstDedup (tokNames ts) :=
        mem_firstDedup (name_mem_tokNames hmem)
      have hany : (firstDedup (tokNames ts)).any
          (fun t => !isAllowedTag t && tagHit t (HTok.tag sl n)) = true := by
        rw [List.any_eq_true]
        exact ⟨n, hnD, by simp [hall2, tagHit, ciIsPrefixOf_refl]⟩
      simp [keepTok, hany, keepSpecTok, hall2]

/-- Claim C5 (amended), witness: on `<h2>x</h2><img>` — where the only
off-whitelist name `img` masks nothing — the sanitizer keeps exactly
`<h2>x</h2>`. -/
theorem claim_C5_amended_witness :
    goodToks [HTok.tag false "h2".data, HTok.txt 'x', HTok.tag true "h2".data,
        HTok.tag false "img".data] = true
    ∧ noMaskedNames [HTok.tag false "h2".data, HTok.txt 'x',
        HTok.tag true "h2".data, HTok.tag false "img".data] = true
    ∧ simplify_html (renderToks [HTok.tag false "h2".data, HTok.txt 'x',
        HTok.tag true "h2".data, HTok.tag false "img".data])
      = renderToks ([HTok.tag false "h2".data, HTok.txt 'x',
        HTok.tag true "h2".data, HTok.tag false "img".data].filter keepSpecTok) :=
  ⟨by decide, by decide, claim_C5_amended _ (by decide) (by decide)⟩

/-- Claim C6, counterexample: `simplify_html` is not idempotent.  On
`<<x>y<x>>` the first pass removes the two `<x…>` tags and the
juxtaposed leftovers form the new tag `<y>`, which a second pass then
removes: `simplify_html` gives `<y>`, applying it again gives the empty
string. -/
theorem claim_C6_counterexample :
    simplify_html (simplify_html "<<x>y<x>>".data)
      ≠ simplify_html "<<x>y<x>>".data := by
  decide

/-- Claim C6 (amended): on a well-formed document (text characters
other than `'<'` and attribute-free tags with non-empty word-character
names) `simplify_html` is idempotent: its output consists of text and
whitelisted tags only, on which a second pass removes nothing. -/
theorem claim_C6_amended (ts : List HTok) (h : goodToks ts = true) :
    simplify_html (simplify_html (renderToks ts))
      = simplify_html (renderToks ts) := by
  rw [simplify_renderToks_eq h]
  have hus : goodToks (ts.filter (keepTok (firstDedup (tokNames ts)))) = true :=
    goodToks_filter h _
  rw [simplify_renderToks_eq hus]
  congr 1
  apply List.filter_eq_self.mpr
  intro tok htok
  show keepTok _ tok = true
  unfold keepTok
  rw [Bool.not_eq_true', List.any_eq_false]
  intro t htD
  have htNames := mem_of_mem_firstDedup htD
  obtain ⟨sl2, hsl2⟩ := tokNames_mem htNames
  have hallowed : isAllowedTag t = true := by
    have hk := keep_allowed _ hsl2
    simpa [keepSpecTok] using hk
  simp [hallowed]

/-- Claim C6 (amended), witness: re-sanitizing the sanitized form of
`<div>a</div><p>b</p>` changes nothing. -/
theorem claim_C6_amended_witness :
    goodToks [HTok.tag false "div".data, HTok.txt 'a', HTok.tag true "div".data,
        HTok.tag false "p".data, HTok.txt 'b', HTok.tag true "p".data] = true
    ∧ simplify_html (simplify_html (renderToks [HTok.tag false "div".data,
        HTok.txt 'a', HTok.tag true "div".data, HTok.tag false "p".data,
        HTok.txt 'b', HTok.tag true "p".data]))
      = simplify_html (renderToks [HTok.tag false "div".data, HTok.txt 'a',
        HTok.tag true "div".data, HTok.tag false "p".data, HTok.txt 'b',
        HTok.tag true "p".data]) :=
  ⟨by decide, claim_C6_amended _ (by decide)⟩

end AutoWriter

